/-
Verification of core algorithms of an LLM gateway backend (Python source,
`backend/app/...`), shallowly embedded in Lean 4.

Conventions of the embedding:
- Python strings are modelled as `List Char`; `str.isdigit` is modelled as
  the ASCII decimal-digit predicate (the gateway only feeds ASCII text to
  the validators it matters for).
- Python floats (costs, confidences, percentages) are modelled as `ℚ`,
  timestamps as `ℕ` (seconds); Python `%` on integers is `Int.emod`
  (both are Euclidean for a positive modulus).
- Redis sorted sets / hashes are modelled as explicit functional state;
  random generators (session ids, `random.random()`) become parameters.
- External engines (the regex `finditer` loop, spaCy NER, providers,
  embeddings) are modelled as oracle inputs where the claims quantify
  over their outputs.
-/
import Mathlib

namespace AIGateway

/-! ### Characters and digit strings -/

/-- Embedding of Python `str.isdigit` restricted to ASCII decimal digits. -/
def isAsciiDigit (c : Char) : Bool :=
  48 ≤ c.toNat && c.toNat ≤ 57

/-- Embedding of `int(d)` on a single digit character. -/
def digitVal (c : Char) : ℕ := c.toNat - 48

/-- One decimal digit as a character (used to embed Python `f"{idx}"`). -/
def digitChar (n : ℕ) : Char :=
  match n with
  | 0 => '0' | 1 => '1' | 2 => '2' | 3 => '3' | 4 => '4'
  | 5 => '5' | 6 => '6' | 7 => '7' | 8 => '8' | _ => '9'

/-- Recursor for `natDigits`; the fuel argument (always sufficient at
`n + 1`) keeps the definition structurally recursive. -/
def natDigitsAux : ℕ → ℕ → List Char
  | 0, _ => []
  | fuel + 1, n =>
    if n < 10 then [digitChar n]
    else natDigitsAux fuel (n / 10) ++ [digitChar (n % 10)]

/-- Decimal representation of a natural number (embedding of Python
`str(n)` for `n : ℕ`). -/
def natDigits (n : ℕ) : List Char := natDigitsAux (n + 1) n

theorem natDigits_ne_nil (n : ℕ) : natDigits n ≠ [] := by
  unfold natDigits natDigitsAux
  split
  · simp
  · simp

theorem isAsciiDigit_digitChar (n : ℕ) (h : n < 10) :
    isAsciiDigit (digitChar n) = true := by
  interval_cases n <;> decide

theorem natDigitsAux_all_digit (fuel : ℕ) :
    ∀ n, ∀ c ∈ natDigitsAux fuel n, isAsciiDigit c = true := by
  induction fuel with
  | zero => intro n c hc; simp [natDigitsAux] at hc
  | succ fuel ih =>
    intro n c hc
    unfold natDigitsAux at hc
    split at hc
    · simp only [List.mem_singleton] at hc
      subst hc
      exact isAsciiDigit_digitChar n (by omega)
    · rcases List.mem_append.1 hc with h1 | h2
      · exact ih (n / 10) c h1
      · simp only [List.mem_singleton] at h2
        subst h2
        exact isAsciiDigit_digitChar _ (Nat.mod_lt _ (by omega))

theorem natDigits_all_digit (n : ℕ) :
    ∀ c ∈ natDigits n, isAsciiDigit c = true :=
  natDigitsAux_all_digit (n + 1) n

/-- Value extraction back from a digit string. -/
def digitsVal (l : List Char) : ℕ := l.foldl (fun a c => a * 10 + digitVal c) 0

theorem digitsVal_append_singleton (l : List Char) (c : Char) :
    digitsVal (l ++ [c]) = digitsVal l * 10 + digitVal c := by
  simp [digitsVal]

theorem digitVal_digitChar (n : ℕ) (h : n < 10) : digitVal (digitChar n) = n := by
  interval_cases n <;> decide

theorem digitsVal_natDigitsAux (fuel : ℕ) :
    ∀ n < fuel, digitsVal (natDigitsAux fuel n) = n := by
  induction fuel with
  | zero => intro n hn; omega
  | succ fuel ih =>
    intro n hn
    unfold natDigitsAux
    split
    · next h =>
      simp [digitsVal, digitVal_digitChar n h]
    · next h =>
      rw [digitsVal_append_singleton,
        ih (n / 10) (by
          have := Nat.div_lt_self (show 0 < n by omega) (show 1 < 10 by omega)
          omega),
        digitVal_digitChar _ (Nat.mod_lt _ (by omega))]
      omega

theorem digitsVal_natDigits (n : ℕ) : digitsVal (natDigits n) = n :=
  digitsVal_natDigitsAux (n + 1) n (by omega)

theorem natDigits_injective {m n : ℕ} (h : natDigits m = natDigits n) : m = n := by
  have := digitsVal_natDigits m
  rw [h, digitsVal_natDigits] at this
  exact this.symm

/-! ### PII data model (`app/pii/entities.py`) -/

/-- `PIIType` enum from `app/pii/entities.py`. -/
inductive PIITypeM where
  | TCKN | PHONE | EMAIL | IBAN | CREDIT_CARD | ADDRESS
  | AMOUNT | PERSON | ORGANIZATION | LOCATION | DATE
deriving DecidableEq, Repr

/-- The `.value` string of a `PIIType` member. -/
def PIITypeM.str : PIITypeM → List Char
  | .TCKN => "TCKN".data
  | .PHONE => "PHONE".data
  | .EMAIL => "EMAIL".data
  | .IBAN => "IBAN".data
  | .CREDIT_CARD => "CREDIT_CARD".data
  | .ADDRESS => "ADDRESS".data
  | .AMOUNT => "AMOUNT".data
  | .PERSON => "PERSON".data
  | .ORGANIZATION => "ORGANIZATION".data
  | .LOCATION => "LOCATION".data
  | .DATE => "DATE".data

/-- `PIIEntity` dataclass; `stop` embeds the Python field `end` (a Lean
keyword). Confidence is a rational (Python float). -/
structure PIIEntityM where
  type : PIITypeM
  text : List Char
  start : ℕ
  stop : ℕ
  confidence : ℚ
deriving DecidableEq, Repr

/-! ### Pattern validators (`app/pii/patterns.py`) -/

/-- `validate_tckn` from `app/pii/patterns.py`.  The slices
`digits[0:9:2]` and `digits[1:9:2]` are expanded to their index sets
{0,2,4,6,8} and {1,3,5,7}, valid under the length-11 guard. -/
def validate_tckn (tckn : List Char) : Bool :=
  if tckn.length ≠ 11 ∨ ¬ (tckn.all isAsciiDigit) then false
  else
    let digits := tckn.map digitVal
    -- sum(digits[:10]) % 10 == digits[10]
    let sumFirst10 := (digits.take 10).sum
    if sumFirst10 % 10 ≠ digits.getD 10 0 then false
    else
      -- odd_sum = sum(digits[0:9:2]), even_sum = sum(digits[1:9:2])
      let oddSum := digits.getD 0 0 + digits.getD 2 0 + digits.getD 4 0
        + digits.getD 6 0 + digits.getD 8 0
      let evenSum := digits.getD 1 0 + digits.getD 3 0 + digits.getD 5 0
        + digits.getD 7 0
      let checkDigit : ℤ := ((oddSum : ℤ) * 7 - (evenSum : ℤ)) % 10
      -- Python: `if check_digit < 0: check_digit += 10` (dead for emod)
      let checkDigit := if checkDigit < 0 then checkDigit + 10 else checkDigit
      checkDigit = (digits.getD 9 0 : ℤ)

/-- Character is an ASCII uppercase letter (post-`upper()` alpha test in
`validate_iban`). -/
def isAsciiUpperAlpha (c : Char) : Bool :=
  65 ≤ c.toNat && c.toNat ≤ 90

/-- Numeric value of the IBAN rearrangement: digits keep their value,
letters contribute two decimal digits `A=10..Z=35`; any other character
aborts.  Building the natural number left to right embeds
`int("".join(parts))`. -/
def ibanNumeric : List Char → Option ℕ → Option ℕ
  | [], acc => acc
  | c :: rest, acc =>
    match acc with
    | none => none
    | some a =>
      if isAsciiDigit c then ibanNumeric rest (some (a * 10 + digitVal c))
      else if isAsciiUpperAlpha c then
        ibanNumeric rest (some (a * 100 + (c.toNat - 65 + 10)))
      else none

/-- `validate_iban` from `app/pii/patterns.py` (spaces removed, upcased,
first four characters moved to the end, mod-97 test). -/
def validate_iban (iban : List Char) : Bool :=
  let cleaned := (iban.filter (fun c => c ≠ ' ')).map Char.toUpper
  if cleaned.length < 4 then false
  else
    let rearranged := cleaned.drop 4 ++ cleaned.take 4
    match ibanNumeric rearranged (some 0) with
    | none => false
    | some n => n % 97 = 1

/-- `luhn_check` from `app/pii/patterns.py`. -/
def luhn_check (card : List Char) : Bool :=
  let cleaned := card.filter (fun c => c ≠ ' ' ∧ c ≠ '-')
  if ¬ cleaned.all isAsciiDigit then false
  else
    let digits := (cleaned.map digitVal).reverse
    let total := (digits.enum.map (fun p =>
      if p.1 % 2 = 1 then
        let doubled := p.2 * 2
        if doubled < 10 then doubled else doubled - 9
      else p.2)).sum
    total % 10 = 0

/-- A raw regex match as handed to `find_pattern_matches` by
`pattern.finditer` (`match.group()`, `match.start()`, `match.end()`);
the regex engine is an oracle of the embedding. -/
structure MatchM where
  mtext : List Char
  mstart : ℕ
  mstop : ℕ
deriving DecidableEq, Repr

/-- Validator dispatch in `find_pattern_matches`. -/
def matchIsValid (ty : PIITypeM) (m : MatchM) : Bool :=
  match ty with
  | .TCKN => validate_tckn m.mtext
  | .IBAN => validate_iban m.mtext
  | .CREDIT_CARD => luhn_check m.mtext
  | _ => true

/-- Entity built from an accepted match. -/
def matchEntity (ty : PIITypeM) (m : MatchM) : PIIEntityM :=
  { type := ty, text := m.mtext, start := m.mstart, stop := m.mstop,
    confidence := 1 }

/-- `find_pattern_matches` from `app/pii/patterns.py`, over the oracle
list of regex matches. -/
def find_pattern_matches (ms : List MatchM) (ty : PIITypeM) :
    List PIIEntityM :=
  (ms.filter (matchIsValid ty)).map (matchEntity ty)

/-- The checksum property exactly as the claim states it (spec-side
restatement, to be compared with the source-side `validate_tckn`):
11 decimal digits, `((d1+d3+d5+d7+d9)*7 − (d2+d4+d6+d8)) mod 10 = d10`,
and `(Σ d1..d10) mod 10 = d11` (1-based digit names, integer mod). -/
def tcknChecksumSpec (s : List Char) : Prop :=
  s.length = 11 ∧ (∀ c ∈ s, isAsciiDigit c = true) ∧
  ((dd s 0 + dd s 2 + dd s 4 + dd s 6 + dd s 8) * 7
      - (dd s 1 + dd s 3 + dd s 5 + dd s 7)) % 10 = dd s 9 ∧
  (dd s 0 + dd s 1 + dd s 2 + dd s 3 + dd s 4 + dd s 5 + dd s 6 + dd s 7
      + dd s 8 + dd s 9) % 10 = dd s 10
where dd (s : List Char) (i : ℕ) : ℤ := ((s.map digitVal).getD i 0 : ℤ)

theorem take10_sum_getD (l : List ℕ) (h : l.length = 11) :
    (l.take 10).sum = l.getD 0 0 + l.getD 1 0 + l.getD 2 0 + l.getD 3 0
      + l.getD 4 0 + l.getD 5 0 + l.getD 6 0 + l.getD 7 0 + l.getD 8 0
      + l.getD 9 0 := by
  obtain - | ⟨a0, l⟩ := l; · exact absurd h (by simp)
  obtain - | ⟨a1, l⟩ := l; · exact absurd h (by simp)
  obtain - | ⟨a2, l⟩ := l; · exact absurd h (by simp)
  obtain - | ⟨a3, l⟩ := l; · exact absurd h (by simp)
  obtain - | ⟨a4, l⟩ := l; · exact absurd h (by simp)
  obtain - | ⟨a5, l⟩ := l; · exact absurd h (by simp)
  obtain - | ⟨a6, l⟩ := l; · exact absurd h (by simp)
  obtain - | ⟨a7, l⟩ := l; · exact absurd h (by simp)
  obtain - | ⟨a8, l⟩ := l; · exact absurd h (by simp)
  obtain - | ⟨a9, l⟩ := l; · exact absurd h (by simp)
  obtain - | ⟨a10, l⟩ := l; · exact absurd h (by simp)
  obtain - | ⟨a11, l⟩ := l
  · simp [List.getD]
    omega
  · exact absurd h (by simp)

/-- C6: `validate_tckn` accepts exactly the strings satisfying the
published two-part checksum over 11 decimal digits, and
`find_pattern_matches` keeps exactly the TCKN regex matches whose text
passes `validate_tckn` (every failing match is dropped). -/
theorem tckn_validation_spec (s : List Char) (ms : List MatchM) :
    (validate_tckn s = true ↔ tcknChecksumSpec s)
    ∧ (∀ e, e ∈ find_pattern_matches ms .TCKN ↔
        ∃ m ∈ ms, validate_tckn m.mtext = true ∧ e = matchEntity .TCKN m) :=
  by
  constructor
  · unfold validate_tckn
    split
    · next hcond =>
      simp only [Bool.false_eq_true, false_iff]
      intro hspec
      obtain ⟨hlen, hdig, _⟩ := hspec
      rcases hcond with h | h
      · exact h hlen
      · exact h (List.all_eq_true.2 hdig)
    · next hcond =>
      push_neg at hcond
      obtain ⟨hlen, hdig⟩ := hcond
      have hmaplen : (s.map digitVal).length = 11 := by simp [hlen]
      have hsum := take10_sum_getD (s.map digitVal) hmaplen
      have hdig' := List.all_eq_true.1 hdig
      dsimp only
      rw [hsum]
      unfold tcknChecksumSpec
      simp only [tcknChecksumSpec.dd]
      split
      · next hne =>
        simp only [Bool.false_eq_true, false_iff]
        rintro ⟨-, -, -, h2⟩
        omega
      · next heq =>
        push_neg at heq
        split
        · next hlt => exact absurd hlt (by omega)
        · next hge =>
          simp only [decide_eq_true_eq]
          constructor
          · intro hchk
            exact ⟨hlen, hdig', by omega, by omega⟩
          · rintro ⟨-, -, h1, -⟩
            omega
  · intro e
    unfold find_pattern_matches
    simp only [List.mem_map, List.mem_filter]
    constructor
    · rintro ⟨m, ⟨hm, hv⟩, rfl⟩
      exact ⟨m, hm, hv, rfl⟩
    · rintro ⟨m, hm, hv, rfl⟩
      exact ⟨m, ⟨hm, hv⟩, rfl⟩

/-- Witness for C6 at a concrete valid TCKN and a singleton match list. -/
theorem tckn_validation_spec_witness :
    validate_tckn "10000000146".data = true ∧
    find_pattern_matches [⟨"10000000146".data, 0, 11⟩] .TCKN
      = [matchEntity .TCKN ⟨"10000000146".data, 0, 11⟩] := by
  have h := tckn_validation_spec "10000000146".data [⟨"10000000146".data, 0, 11⟩]
  refine ⟨h.1.mpr (by unfold tcknChecksumSpec tcknChecksumSpec.dd; decide), ?_⟩
  decide

/-! ### A/B router (`app/providers/router.py`) -/

/-- One entry of `ab_testing.variants` (a config dict; absent keys are
`none`, read with `.get` defaults). -/
structure ABVariant where
  provider : Option String
  model : Option String
  percentage : Option ℚ
deriving DecidableEq, Repr

/-- `variant.get("provider", "openai")`, `variant.get("model",
"gpt-3.5-turbo")` as used at every return of the loop and fallback. -/
def pickVariant (v : ABVariant) : String × String :=
  (v.provider.getD "openai", v.model.getD "gpt-3.5-turbo")

/-- The `for variant in variants` loop of `route_request`, carrying the
running `cumulative`; `r` is the sampled `random.random() * 100`. -/
def routeLoop : List ABVariant → ℚ → ℚ → Option (String × String)
  | [], _, _ => none
  | v :: rest, cum, r =>
    let cum := cum + v.percentage.getD 0
    if r ≤ cum then some (pickVariant v)
    else routeLoop rest cum r

/-- `ABRouter.route_request` from `app/providers/router.py`.
`openaiEnabled` embeds `config_manager.get("providers.openai.enabled",
True)` and `defaultModelOf p` embeds
`config_manager.get(f"providers.{p}.default_model", "gpt-3.5-turbo")`. -/
def route_request (enabled : Bool) (variants : List ABVariant)
    (openaiEnabled : Bool) (defaultModelOf : String → String) (r : ℚ) :
    String × String :=
  if ¬ enabled = true ∨ variants = [] then
    let dp := if openaiEnabled then "openai" else "gemini"
    (dp, defaultModelOf dp)
  else
    match routeLoop variants 0 r with
    | some pm => pm
    | none =>
      match variants with
      | v :: _ => pickVariant v
      | [] => ("openai", "gpt-3.5-turbo")

/-- Cumulative percentage of the first `i+1` variants. -/
def cumPct (variants : List ABVariant) (i : ℕ) : ℚ :=
  ((variants.take (i + 1)).map (fun v => v.percentage.getD 0)).sum

theorem cumPct_cons (v : ABVariant) (l : List ABVariant) (i : ℕ) :
    cumPct (v :: l) (i + 1) = v.percentage.getD 0 + cumPct l i := by
  simp [cumPct, List.take_cons]

theorem routeLoop_hit (l : List ABVariant) (cum r : ℚ) (i : ℕ)
    (hi : i < l.length)
    (hr : r ≤ cum + cumPct l i)
    (hmin : ∀ j < i, ¬ r ≤ cum + cumPct l j) :
    routeLoop l cum r = some (pickVariant (l.getD i ⟨none, none, none⟩)) := by
  induction l generalizing cum i with
  | nil => simp at hi
  | cons v rest ih =>
    match i with
    | 0 =>
      have : r ≤ cum + v.percentage.getD 0 := by
        simpa [cumPct] using hr
      simp [routeLoop, this]
    | i + 1 =>
      have h0 : ¬ r ≤ cum + v.percentage.getD 0 := by
        simpa [cumPct] using hmin 0 (by omega)
      rw [routeLoop]
      simp only [h0, if_false]
      rw [cumPct_cons] at hr
      have := ih (cum + v.percentage.getD 0) i (by simpa using hi)
        (by linarith) (fun j hj => by
          have := hmin (j + 1) (by omega)
          rw [cumPct_cons] at this
          intro hc
          exact this (by linarith))
      simpa using this

theorem routeLoop_miss (l : List ABVariant) (cum r : ℚ)
    (h : ∀ i < l.length, ¬ r ≤ cum + cumPct l i) :
    routeLoop l cum r = none := by
  induction l generalizing cum with
  | nil => rfl
  | cons v rest ih =>
    have h0 : ¬ r ≤ cum + v.percentage.getD 0 := by
      simpa [cumPct] using h 0 (by simp)
    rw [routeLoop]
    simp only [h0, if_false]
    exact ih (cum + v.percentage.getD 0) (fun i hi => by
      have := h (i + 1) (by simpa using Nat.succ_lt_succ hi)
      rw [cumPct_cons] at this
      intro hc
      exact this (by linarith))

/-- C7 (amended): with A/B testing enabled, a non-empty variant list and
`r ∈ [0,100)`, `route_request` returns the first variant whose cumulative
percentage reaches `r`; when no cumulative percentage reaches `r`
(misconfiguration), it returns the FIRST VARIANT (with per-key defaults),
not the system default provider/model. -/
theorem ab_router_first_reach (variants : List ABVariant)
    (oe : Bool) (dm : String → String) (r : ℚ)
    (hne : variants ≠ []) (_h0 : 0 ≤ r) (_h1 : r < 100) :
    (∀ i < variants.length, r ≤ cumPct variants i →
      (∀ j < i, ¬ r ≤ cumPct variants j) →
      route_request true variants oe dm r
        = pickVariant (variants.getD i ⟨none, none, none⟩))
    ∧ ((∀ i < variants.length, ¬ r ≤ cumPct variants i) →
      route_request true variants oe dm r
        = pickVariant (variants.getD 0 ⟨none, none, none⟩)) := by
  constructor
  · intro i hi hr hmin
    unfold route_request
    rw [if_neg (by simp [hne])]
    rw [routeLoop_hit variants 0 r i hi (by simpa using hr)
      (fun j hj => by simpa using hmin j hj)]
  · intro hall
    unfold route_request
    rw [if_neg (by simp [hne])]
    rw [routeLoop_miss variants 0 r (fun i hi => by simpa using hall i hi)]
    match variants, hne with
    | v :: rest, _ => simp

/-- Witness for C7 at a concrete configuration: the single 30%-variant is
hit for `r = 20`, and is also returned as fallback for `r = 50`. -/
theorem ab_router_first_reach_witness :
    route_request true [⟨some "a", some "m", some 30⟩] true (fun _ => "dm") 20
      = ("a", "m")
    ∧ route_request true [⟨some "a", some "m", some 30⟩] true (fun _ => "dm") 50
      = ("a", "m") := by
  have h20 := ab_router_first_reach [⟨some "a", some "m", some 30⟩] true
    (fun _ => "dm") 20 (by simp) (by norm_num) (by norm_num)
  have h50 := ab_router_first_reach [⟨some "a", some "m", some 30⟩] true
    (fun _ => "dm") 50 (by simp) (by norm_num) (by norm_num)
  constructor
  · have := h20.1 0 (by simp) (by norm_num [cumPct]) (by omega)
    simpa [pickVariant] using this
  · have := h50.2 (by
      intro i hi
      simp only [List.length_singleton] at hi
      interval_cases i
      norm_num [cumPct])
    simpa [pickVariant] using this

/-- C7 counterexample to the claim as stated: with a single variant at
30% and `r = 50` (beyond the total), the router returns the first
variant `("a", "m")`, not the system default `("openai", "dm")`. -/
theorem ab_router_misconfig_counterexample :
    route_request true [⟨some "a", some "m", some 30⟩] true (fun _ => "dm") 50
      = ("a", "m")
    ∧ ("a", "m") ≠ (("openai" : String), ("dm" : String)) := by
  constructor
  · have hmiss : routeLoop [⟨some "a", some "m", some 30⟩] 0 50 = none := by
      apply routeLoop_miss
      intro i hi
      simp only [List.length_singleton] at hi
      interval_cases i
      norm_num [cumPct]
    unfold route_request
    rw [if_neg (by simp)]
    rw [hmiss]
    simp [pickVariant]
  · decide

/-! ### Budget service (`app/services/budget_service.py`,
`app/db/repositories/budget_repo.py`) -/

/-- A row of the `budgets` table as `check_budget` reads it.  Money is
`ℚ` (Python float), `reset_at` an abstract UTC timestamp in seconds. -/
structure BudgetM where
  limit : ℚ
  period : String
  current_spend : ℚ
  reset_at : ℕ
deriving DecidableEq, Repr

/-- Lazy creation from `get_or_create_budget`: a missing budget row is
created with the configured defaults, zero spend, and a period-boundary
`reset_at` (the `datetime` arithmetic is the oracle `nextResetAt`). -/
def lazyCreateBudget (defaultLimit : ℚ) (defaultPeriod : String)
    (nextResetAt : String → ℕ → ℕ) (now : ℕ) : Option BudgetM → BudgetM
  | some b => b
  | none =>
    { limit := defaultLimit, period := defaultPeriod, current_spend := 0,
      reset_at := nextResetAt defaultPeriod now }

/-- Rollover from `reset_budget`, applied by `check_budget` when
`now ≥ reset_at`: zero the spend and move `reset_at` to the next period
boundary. -/
def rolloverBudget (nextResetAt : String → ℕ → ℕ) (now : ℕ) (b : BudgetM) :
    BudgetM :=
  if b.reset_at ≤ now then
    { b with current_spend := 0, reset_at := nextResetAt b.period now }
  else b

/-- `BudgetService.check_budget`.  Returns the budget row as left in the
database together with the outcome: `.ok true` admits, `.error (spend,
limit)` embeds `BudgetExceededException(current_spend, limit)`.  The
creation/rollover commits happen before the raise, so the row persists in
both outcomes. -/
def check_budget (enabled : Bool) (defaultLimit : ℚ) (defaultPeriod : String)
    (nextResetAt : String → ℕ → ℕ) (stored : Option BudgetM) (now : ℕ)
    (cost : ℚ) : Option BudgetM × Except (ℚ × ℚ) Bool :=
  if enabled = false then (stored, .ok true)
  else
    let b1 := lazyCreateBudget defaultLimit defaultPeriod nextResetAt now stored
    let b2 := rolloverBudget nextResetAt now b1
    if b2.limit < b2.current_spend + cost then
      (some b2, .error (b2.current_spend, b2.limit))
    else
      (some b2, .ok true)

/-- C4: with budget checking enabled, after lazy creation and any due
rollover, `check_budget` admits iff `current_spend + cost ≤ limit`;
otherwise it raises `BudgetExceeded` carrying exactly the (post-rollover)
current spend and limit; and the budget row left behind is the same
`b2` in both outcomes — admission consumes no spend. -/
theorem check_budget_spec (defaultLimit : ℚ) (defaultPeriod : String)
    (nextResetAt : String → ℕ → ℕ) (stored : Option BudgetM) (now : ℕ)
    (cost : ℚ) :
    (check_budget true defaultLimit defaultPeriod nextResetAt stored now cost
        = (some (rolloverBudget nextResetAt now
            (lazyCreateBudget defaultLimit defaultPeriod nextResetAt now stored)),
           .ok true)
      ↔ (rolloverBudget nextResetAt now
            (lazyCreateBudget defaultLimit defaultPeriod nextResetAt now
              stored)).current_spend + cost
          ≤ (rolloverBudget nextResetAt now
            (lazyCreateBudget defaultLimit defaultPeriod nextResetAt now
              stored)).limit)
    ∧ (¬ ((rolloverBudget nextResetAt now
            (lazyCreateBudget defaultLimit defaultPeriod nextResetAt now
              stored)).current_spend + cost
          ≤ (rolloverBudget nextResetAt now
            (lazyCreateBudget defaultLimit defaultPeriod nextResetAt now
              stored)).limit) →
        check_budget true defaultLimit defaultPeriod nextResetAt stored now cost
          = (some (rolloverBudget nextResetAt now
              (lazyCreateBudget defaultLimit defaultPeriod nextResetAt now
                stored)),
             .error ((rolloverBudget nextResetAt now
                (lazyCreateBudget defaultLimit defaultPeriod nextResetAt now
                  stored)).current_spend,
               (rolloverBudget nextResetAt now
                (lazyCreateBudget defaultLimit defaultPeriod nextResetAt now
                  stored)).limit))) := by
  set b2 := rolloverBudget nextResetAt now
    (lazyCreateBudget defaultLimit defaultPeriod nextResetAt now stored) with hb2
  unfold check_budget
  rw [if_neg (by simp)]
  dsimp only
  rw [← hb2]
  constructor
  · constructor
    · intro h
      by_contra hc
      push_neg at hc
      rw [if_pos hc] at h
      simp at h
    · intro h
      rw [if_neg (not_lt.2 h)]
  · intro h
    push_neg at h
    rw [if_pos h]

/-- Witness for C4: a stored budget at spend 9, limit 10, not yet due for
rollover; a cost of 2 is rejected with payload `(9, 10)`, a cost of 1 is
admitted, both leaving the row unchanged. -/
theorem check_budget_spec_witness :
    check_budget true 100 "monthly" (fun _ t => t + 5) (some ⟨10, "monthly", 9, 50⟩) 7 2
      = (some ⟨10, "monthly", 9, 50⟩, .error (9, 10))
    ∧ check_budget true 100 "monthly" (fun _ t => t + 5) (some ⟨10, "monthly", 9, 50⟩) 7 1
      = (some ⟨10, "monthly", 9, 50⟩, .ok true) := by
  have h2 := check_budget_spec 100 "monthly" (fun _ t => t + 5)
    (some ⟨10, "monthly", 9, 50⟩) 7 2
  have h1 := check_budget_spec 100 "monthly" (fun _ t => t + 5)
    (some ⟨10, "monthly", 9, 50⟩) 7 1
  have hb : rolloverBudget (fun _ t => t + 5) 7
      (lazyCreateBudget 100 "monthly" (fun _ t => t + 5) 7
        (some ⟨10, "monthly", 9, 50⟩)) = ⟨10, "monthly", 9, 50⟩ := by
    norm_num [rolloverBudget, lazyCreateBudget]
  constructor
  · have := h2.2 (by rw [hb]; norm_num)
    rwa [hb] at this
  · have := h1.1.mpr (by rw [hb]; norm_num)
    rwa [hb] at this

/-! ### Similarity kernel (`app/cache/similarity.py`)

Vectors are embedded as `List ℝ` (numpy float arithmetic idealised as
real arithmetic, the only infidelity of this section). -/

/-- `np.dot` on equal-length vectors. -/
def dotList (a b : List ℝ) : ℝ := (List.zipWith (· * ·) a b).sum

/-- `np.linalg.norm`. -/
noncomputable def normList (a : List ℝ) : ℝ := Real.sqrt (dotList a a)

/-- `cosine_similarity` from `app/cache/similarity.py`. -/
noncomputable def cosine_similarity (a b : List ℝ) : ℝ :=
  if normList a = 0 ∨ normList b = 0 then 0
  else dotList a b / (normList a * normList b)

theorem dotList_self_nonneg (v : List ℝ) : 0 ≤ dotList v v := by
  induction v with
  | nil => simp [dotList]
  | cons x t ih =>
    have : dotList (x :: t) (x :: t) = x * x + dotList t t := by
      simp [dotList]
    rw [this]
    nlinarith

theorem dotList_self_pos (v : List ℝ) (h : ∃ x ∈ v, x ≠ 0) :
    0 < dotList v v := by
  obtain ⟨x, hx, hxne⟩ := h
  induction v with
  | nil => simp at hx
  | cons a t ih =>
    have hsplit : dotList (a :: t) (a :: t) = a * a + dotList t t := by
      simp [dotList]
    rw [hsplit]
    rcases List.mem_cons.1 hx with rfl | hmem
    · have := dotList_self_nonneg t
      nlinarith [mul_self_pos.2 hxne]
    · have := ih hmem
      nlinarith [mul_self_nonneg a]

/-- C9: cosine similarity of a non-zero vector with itself is exactly 1;
any pair with zero dot product (orthogonality) yields 0; and any input
with zero norm yields 0. -/
theorem cosine_similarity_spec (v w : List ℝ) :
    ((∃ x ∈ v, x ≠ 0) → cosine_similarity v v = 1)
    ∧ (dotList v w = 0 → cosine_similarity v w = 0)
    ∧ (normList v = 0 ∨ normList w = 0 → cosine_similarity v w = 0) := by
  refine ⟨?_, ?_, ?_⟩
  · intro h
    have hpos : 0 < dotList v v := dotList_self_pos v h
    have hnorm : normList v ≠ 0 := by
      unfold normList
      positivity
    unfold cosine_similarity
    rw [if_neg (by push_neg; exact ⟨hnorm, hnorm⟩)]
    unfold normList
    rw [Real.mul_self_sqrt (le_of_lt hpos)]
    exact div_self (ne_of_gt hpos)
  · intro h
    unfold cosine_similarity
    split
    · rfl
    · rw [h, zero_div]
  · intro h
    unfold cosine_similarity
    rw [if_pos h]

/-- Witness for C9 at concrete vectors: `[1,2]` against itself, the
orthogonal pair `[1,0]`/`[0,1]`, and the zero-norm pair `[0]`/`[1]`. -/
theorem cosine_similarity_spec_witness :
    cosine_similarity [(1 : ℝ), 2] [(1 : ℝ), 2] = 1
    ∧ cosine_similarity [(1 : ℝ), 0] [(0 : ℝ), 1] = 0
    ∧ cosine_similarity [(0 : ℝ)] [(1 : ℝ)] = 0 := by
  refine ⟨?_, ?_, ?_⟩
  · exact (cosine_similarity_spec [(1 : ℝ), 2] [(1 : ℝ), 2]).1
      ⟨1, by simp, one_ne_zero⟩
  · exact (cosine_similarity_spec [(1 : ℝ), 0] [(0 : ℝ), 1]).2.1
      (by norm_num [dotList])
  · exact (cosine_similarity_spec [(0 : ℝ)] [(1 : ℝ)]).2.2
      (Or.inl (by norm_num [normList, dotList]))

/-! ### Guardrail engine (`app/guardrails/engine.py`, `rules.py`)

The `re.search`-based content matcher of `validate_content` is an oracle
parameter `matcher`; violation `message` strings are omitted (they are
determined by the structured `details` kept here). -/

/-- Kind-specific payload of a rule (`MaxTokensRule`, `NoPIIRule`,
`ContentFilterRule`, `MaxCostRule`). -/
inductive RuleKind where
  | maxTokens (threshold : ℤ)
  | noPII (entityTypes : List (List Char))
  | contentFilter (patterns : List (List Char))
  | maxCost (threshold : ℚ)
deriving DecidableEq, Repr

/-- A configured rule (`BaseRule` fields plus the kind payload). -/
structure RuleM where
  name : String
  enabled : Bool
  severity : String
  action : String
  kind : RuleKind
deriving DecidableEq, Repr

/-- Structured stand-in for the `details` dict of a violation. -/
inductive ViolationDetails where
  | tokens (tokens threshold : ℤ)
  | pii (entities : List PIIEntityM)
  | content (patterns : List (List Char))
  | cost (cost threshold : ℚ)
deriving DecidableEq, Repr

/-- `GuardrailViolation` (dataclass of `rules.py`). -/
structure ViolationM where
  rule_name : String
  severity : String
  details : ViolationDetails
deriving DecidableEq, Repr

/-- `rule.check(...)` dispatch over the four built-in rule classes.
Falsiness of Python arguments is kept: `None` tokens/cost skip, an empty
entity list and empty text are falsy. -/
def ruleCheck (matcher : List Char → List (List Char) → Bool) (r : RuleM)
    (text : Option (List Char)) (pii : Option (List PIIEntityM))
    (tokens : Option ℤ) (cost : Option ℚ) : Option ViolationM :=
  if r.enabled = false then none
  else
    match r.kind with
    | .maxTokens th =>
      match tokens with
      | none => none
      | some t =>
        if th < t then some ⟨r.name, r.severity, .tokens t th⟩ else none
    | .noPII tys =>
      match pii with
      | none => none
      | some es =>
        if es = [] then none
        else
          let filtered := es.filter (fun e =>
            tys.isEmpty || tys.contains e.type.str)
          if filtered = [] then none
          else some ⟨r.name, r.severity, .pii filtered⟩
    | .contentFilter pats =>
      match text with
      | none => none
      | some t =>
        if t = [] then none
        else if matcher t pats then some ⟨r.name, r.severity, .content pats⟩
        else none
    | .maxCost th =>
      match cost with
      | none => none
      | some c =>
        if th < c then some ⟨r.name, r.severity, .cost c th⟩ else none

/-- `GuardrailResult` dataclass. -/
structure GuardrailResultM where
  passed : Bool
  violations : List ViolationM
  should_block : Bool
deriving DecidableEq, Repr

/-- `GuardrailEngine.check`: run every enabled rule, collect violations,
block when some violation has severity `error` and `block_on_violation`
is set; a disabled engine short-circuits to passed. -/
def engineCheck (matcher : List Char → List (List Char) → Bool)
    (enabled blockOnViolation : Bool) (rules : List RuleM)
    (text : Option (List Char)) (pii : Option (List PIIEntityM))
    (tokens : Option ℤ) (cost : Option ℚ) : GuardrailResultM :=
  if enabled = false then ⟨true, [], false⟩
  else
    let vs := rules.filterMap (fun r =>
      if r.enabled = false then none
      else ruleCheck matcher r text pii tokens cost)
    { passed := vs.isEmpty,
      violations := vs,
      should_block := blockOnViolation && vs.any (fun v => v.severity == "error") }

/-- Two rules agree on everything except that the second may enable what
the first disables (the inclusion of enabled rule sets, pointwise). -/
def ruleLeEnabled (r1 r2 : RuleM) : Prop :=
  r1.name = r2.name ∧ r1.severity = r2.severity ∧ r1.action = r2.action
    ∧ r1.kind = r2.kind ∧ (r1.enabled = true → r2.enabled = true)

theorem ruleCheck_eq_of_ruleLeEnabled (matcher) (r1 r2 : RuleM)
    (h : ruleLeEnabled r1 r2) (hen : r1.enabled = true)
    (text : Option (List Char)) (pii : Option (List PIIEntityM))
    (tokens : Option ℤ) (cost : Option ℚ) :
    ruleCheck matcher r1 text pii tokens cost
      = ruleCheck matcher r2 text pii tokens cost := by
  obtain ⟨hn, hs, ha, hk, he⟩ := h
  unfold ruleCheck
  rw [hen, he hen, hn, hs, hk]

/-- C8: guardrail monotonicity.  For pointwise-included enabled rule sets
(same rules, the second enabling at least what the first enables, and the
engine itself no less enabled), every violation reported by the smaller
configuration is also reported by the larger one, on every input. -/
theorem guardrail_engine_monotone
    (matcher : List Char → List (List Char) → Bool)
    (en1 en2 b1 b2 : Bool) (rules1 rules2 : List RuleM)
    (text : Option (List Char)) (pii : Option (List PIIEntityM))
    (tokens : Option ℤ) (cost : Option ℚ)
    (hrules : List.Forall₂ ruleLeEnabled rules1 rules2)
    (hen : en1 = true → en2 = true) :
    ∀ v ∈ (engineCheck matcher en1 b1 rules1 text pii tokens cost).violations,
      v ∈ (engineCheck matcher en2 b2 rules2 text pii tokens cost).violations := by
  by_cases h1 : en1 = true
  · have h2 := hen h1
    subst h1
    rw [h2]
    unfold engineCheck
    simp only [Bool.true_eq_false, if_false]
    have hsub : List.Sublist
        (rules1.filterMap (fun r =>
          if r.enabled = false then none
          else ruleCheck matcher r text pii tokens cost))
        (rules2.filterMap (fun r =>
          if r.enabled = false then none
          else ruleCheck matcher r text pii tokens cost)) := by
      induction hrules with
      | nil => exact List.Sublist.refl _
      | cons hr hrest ih =>
        rename_i r1 r2 l1 l2
        rw [List.filterMap_cons, List.filterMap_cons]
        by_cases hen1 : r1.enabled = true
        · have hen2 := hr.2.2.2.2 hen1
          rw [hen1, hen2]
          simp only [Bool.true_eq_false, if_false]
          rw [ruleCheck_eq_of_ruleLeEnabled matcher r1 r2 hr hen1]
          cases hcheck : ruleCheck matcher r2 text pii tokens cost with
          | none => exact ih
          | some v => exact List.Sublist.cons₂ v ih
        · have hen1' : r1.enabled = false := by
            cases hval : r1.enabled
            · rfl
            · exact absurd hval hen1
          rw [hen1']
          simp only [if_pos rfl]
          cases hr2e : r2.enabled
          · simp only [if_pos rfl]
            exact ih
          · simp only [Bool.true_eq_false, if_false]
            cases hcheck : ruleCheck matcher r2 text pii tokens cost with
            | none => exact ih
            | some v => exact List.Sublist.cons v ih
    exact fun v hv => hsub.subset hv
  · have h1' : en1 = false := by
      cases hval : en1
      · rfl
      · exact absurd hval h1
    subst h1'
    intro v hv
    unfold engineCheck at hv
    simp at hv

/-- Witness for C8 at a concrete input: the token violation reported by
the smaller configuration (max-cost rule disabled) is still reported
when the max-cost rule is additionally enabled. -/
theorem guardrail_engine_monotone_witness :
    (⟨"max_tokens", "error", .tokens 200 100⟩ : ViolationM)
      ∈ (engineCheck (fun _ _ => false) true true
          [⟨"max_tokens", true, "error", "block", .maxTokens 100⟩,
           ⟨"max_cost", true, "error", "block", .maxCost 1⟩]
          none none (some 200) none).violations := by
  apply guardrail_engine_monotone (fun _ _ => false) true true true true
    [⟨"max_tokens", true, "error", "block", .maxTokens 100⟩,
     ⟨"max_cost", false, "error", "block", .maxCost 1⟩]
    [⟨"max_tokens", true, "error", "block", .maxTokens 100⟩,
     ⟨"max_cost", true, "error", "block", .maxCost 1⟩]
    none none (some 200) none
    (List.Forall₂.cons ⟨rfl, rfl, rfl, rfl, fun h => h⟩
      (List.Forall₂.cons ⟨rfl, rfl, rfl, rfl, fun _ => rfl⟩ List.Forall₂.nil))
    (fun h => h)
  decide

/-! ### Failover manager (`app/providers/fallback.py`)

`provider_instance.complete` is the oracle `complete : provider → model →
Except E R`; config lookups are the oracles `providerModels`,
`cfgDefaultModel` (with their in-code `"gpt-3.5-turbo"` fallback folded
in) and `instDefaultModel`. -/

/-- Possible outcomes of `execute_with_fallback`. -/
inductive FallbackOutcome (E R : Type) where
  | ok (r : R)
  | directErr (e : E)
  | allFailed (last : Option E)
  | unknownProvider
deriving DecidableEq, Repr

/-- Model selection per candidate (`provider_model` in the loop body):
the primary keeps the caller's model (or the primary's configured
default); a fallback provider keeps the caller's model only when listed
in its `models` config, otherwise uses its own default. -/
def pickFallbackModel (providerModels : String → List String)
    (cfgDefaultModel : String → String) (model : Option String)
    (p c : String) : String :=
  if c = p then model.getD (cfgDefaultModel p)
  else
    match model with
    | some m => if m ∈ providerModels c then m else cfgDefaultModel c
    | none => cfgDefaultModel c

/-- The `for provider_name in providers_to_try` loop: returns the
attempted `(provider, model)` pairs in order and either the first
success or the error of the last candidate (`last_error`). -/
def tryProviders {E R : Type} (complete : String → String → Except E R)
    (pickModel : String → String) :
    List String → Option E → List (String × String) × Except (Option E) R
  | [], lastErr => ([], .error lastErr)
  | c :: rest, _lastErr =>
    match complete c (pickModel c) with
    | .ok r => ([(c, pickModel c)], .ok r)
    | .error e =>
      let res := tryProviders complete pickModel rest (some e)
      ((c, pickModel c) :: res.1, res.2)

/-- `FallbackManager.execute_with_fallback`.  Returns the attempted
`(provider, model)` pairs and the outcome; `.allFailed` embeds
`ProviderException("All providers failed. Last error: ...")`. -/
def execute_with_fallback {E R : Type} (enabled : Bool) (order : List String)
    (providerModels : String → List String)
    (cfgDefaultModel instDefaultModel : String → String)
    (complete : String → String → Except E R)
    (model : Option String) (provider : Option String) :
    List (String × String) × FallbackOutcome E R :=
  if enabled = false ∨ provider = none then
    match provider with
    | none => ([], .unknownProvider)
    | some p =>
      let m := model.getD (instDefaultModel p)
      match complete p m with
      | .ok r => ([(p, m)], .ok r)
      | .error e => ([(p, m)], .directErr e)
  else
    match provider with
    | some p =>
      let chain := p :: order.filter (fun q => q ≠ p)
      let pick := pickFallbackModel providerModels cfgDefaultModel model p
      let res := tryProviders complete pick chain none
      (res.1, match res.2 with
        | .ok r => .ok r
        | .error le => .allFailed le)
    | none => ([], .unknownProvider)

theorem tryProviders_first_success {E R : Type}
    (complete : String → String → Except E R) (pick : String → String)
    (l1 : List String) (c : String) (l2 : List String) (r : R)
    (le : Option E)
    (hfail : ∀ d ∈ l1, ∃ e, complete d (pick d) = .error e)
    (hc : complete c (pick c) = .ok r) :
    tryProviders complete pick (l1 ++ c :: l2) le
      = ((l1 ++ [c]).map (fun d => (d, pick d)), .ok r) := by
  induction l1 generalizing le with
  | nil =>
    simp only [List.nil_append, List.map_cons, List.map_nil]
    rw [tryProviders, hc]
  | cons d rest ih =>
    obtain ⟨e, he⟩ := hfail d (by simp)
    rw [List.cons_append, tryProviders, he]
    dsimp only
    rw [ih (some e) (fun x hx => hfail x (List.mem_cons_of_mem _ hx))]
    simp

theorem tryProviders_all_fail {E R : Type}
    (complete : String → String → Except E R) (pick : String → String)
    (l : List String) (errs : String → E) (le : Option E)
    (hfail : ∀ d ∈ l, complete d (pick d) = .error (errs d)) :
    tryProviders complete pick l le
      = (l.map (fun d => (d, pick d)),
         .error (match l.getLast? with
                 | some d => some (errs d)
                 | none => le)) := by
  induction l generalizing le with
  | nil => rfl
  | cons d rest ih =>
    rw [tryProviders, hfail d (by simp)]
    dsimp only
    rw [ih (some (errs d)) (fun x hx => hfail x (List.mem_cons_of_mem _ hx))]
    cases rest with
    | nil => simp
    | cons d2 rest2 =>
      rw [List.getLast?_cons_cons, List.getLast?_eq_getLast (d2 :: rest2) (by simp)]
      simp

/-- C5: with failover enabled and a primary provider `p`, let
`chain = p :: (configured order without p)` and `pick` the per-candidate
model selection.  If the chain splits as `l1 ++ c :: l2` with every
candidate of `l1` failing and `c` succeeding with `r`, the manager
attempts exactly `l1 ++ [c]` in order and returns `r` (later candidates
are never tried); if every candidate fails, it attempts the whole chain
and raises the all-providers-failed error wrapping the last candidate's
error. -/
theorem fallback_try_chain {E R : Type} (order : List String)
    (providerModels : String → List String)
    (cfgDefaultModel instDefaultModel : String → String)
    (complete : String → String → Except E R)
    (model : Option String) (p : String) :
    (∀ l1 c l2 (r : R),
      p :: order.filter (fun q => q ≠ p) = l1 ++ c :: l2 →
      (∀ d ∈ l1, ∃ e, complete d
        (pickFallbackModel providerModels cfgDefaultModel model p d)
          = .error e) →
      complete c (pickFallbackModel providerModels cfgDefaultModel model p c)
          = .ok r →
      execute_with_fallback true order providerModels cfgDefaultModel
          instDefaultModel complete model (some p)
        = ((l1 ++ [c]).map (fun d =>
            (d, pickFallbackModel providerModels cfgDefaultModel model p d)),
           .ok r))
    ∧ (∀ errs : String → E,
      (∀ d ∈ p :: order.filter (fun q => q ≠ p),
        complete d (pickFallbackModel providerModels cfgDefaultModel model p d)
          = .error (errs d)) →
      execute_with_fallback true order providerModels cfgDefaultModel
          instDefaultModel complete model (some p)
        = ((p :: order.filter (fun q => q ≠ p)).map (fun d =>
            (d, pickFallbackModel providerModels cfgDefaultModel model p d)),
           .allFailed (some (errs
             ((p :: order.filter (fun q => q ≠ p)).getLast (by simp)))))) := by
  constructor
  · intro l1 c l2 r hchain hfail hc
    unfold execute_with_fallback
    rw [if_neg (by simp)]
    dsimp only
    rw [hchain, tryProviders_first_success complete _ l1 c l2 r none hfail hc]
  · intro errs hfail
    unfold execute_with_fallback
    rw [if_neg (by simp)]
    dsimp only
    rw [tryProviders_all_fail complete _ _ errs none hfail]
    have hlast : (p :: order.filter (fun q => q ≠ p)).getLast? =
        some ((p :: order.filter (fun q => q ≠ p)).getLast (by simp)) := by
      rw [List.getLast?_eq_getLast _ (by simp)]
    rw [hlast]

/-- Witness for C5: order `["a","b"]`, primary `"b"`, chain `["b","a"]`;
`"b"` fails and `"a"` succeeds, so exactly `[("b","m"),("a","m")]` is
attempted and the result is `42`. -/
theorem fallback_try_chain_witness :
    execute_with_fallback (E := ℕ) (R := ℕ) true ["a", "b"] (fun _ => [])
        (fun _ => "m") (fun _ => "m")
        (fun c _ => if c = "a" then .ok 42 else .error 7) none (some "b")
      = ([("b", "m"), ("a", "m")], .ok 42) := by
  have h := (fallback_try_chain (E := ℕ) (R := ℕ) ["a", "b"] (fun _ => [])
    (fun _ => "m") (fun _ => "m")
    (fun c _ => if c = "a" then .ok 42 else .error 7) none "b").1
    ["b"] "a" [] 42 (by decide)
    (by
      intro d hd
      simp only [List.mem_singleton] at hd
      subst hd
      exact ⟨7, rfl⟩)
    rfl
  simpa [pickFallbackModel] using h

/-! ### Sliding-window rate limiter (`app/core/rate_limiter.py`)

Timestamps are naturals (seconds).  A Redis sorted set whose members are
`str(now)` is a set of timestamps, kept here as a duplicate-free list;
`zcount key (now-w) now` counts scores in the closed range, and
`zremrangebyscore key 0 (now-w)` drops scores `≤ now-w` (conditions are
written additively so natural subtraction cannot distort them). -/

/-- The two windows of one principal's rate-limit state. -/
structure RLState where
  minute : List ℕ
  hour : List ℕ
deriving DecidableEq, Repr

/-- `ZCOUNT key (now - window) now` on a set of timestamps. -/
def zcount (l : List ℕ) (now window : ℕ) : ℕ :=
  (l.filter (fun s => now ≤ s + window ∧ s ≤ now)).length

/-- `ZADD key {str(now): now}`: a sorted set keyed by the member string,
so re-adding an existing timestamp is a no-op. -/
def zaddTs (l : List ℕ) (t : ℕ) : List ℕ :=
  if t ∈ l then l else l ++ [t]

/-- `ZREMRANGEBYSCORE key 0 (now - window)`. -/
def ztrim (l : List ℕ) (now window : ℕ) : List ℕ :=
  l.filter (fun s => ¬ s + window ≤ now)

/-- `RateLimiter.check_rate_limit` for one principal: count the minute
window, then the hour window, raise `RateLimitException(retry_after)`
with `retry_after = int(window - now % window) + 1` on either violation,
otherwise record `now` in both windows and trim stale entries. -/
def check_rate_limit (perMinute perHour : ℕ) (now : ℕ) (st : RLState) :
    Except ℕ RLState :=
  if perMinute ≤ zcount st.minute now 60 then
    .error (60 - now % 60 + 1)
  else if perHour ≤ zcount st.hour now 3600 then
    .error (3600 - now % 3600 + 1)
  else
    .ok { minute := ztrim (zaddTs st.minute now) now 60,
          hour := ztrim (zaddTs st.hour now) now 3600 }

/-- A sequence of checks for one principal at the given call times. -/
def runCalls (perMinute perHour : ℕ) (st : RLState) : List ℕ → Except ℕ RLState
  | [] => .ok st
  | t :: ts =>
    match check_rate_limit perMinute perHour t st with
    | .ok st' => runCalls perMinute perHour st' ts
    | .error r => .error r

theorem runCalls_append (perMinute perHour : ℕ) (st : RLState)
    (l1 l2 : List ℕ) :
    runCalls perMinute perHour st (l1 ++ l2)
      = match runCalls perMinute perHour st l1 with
        | .ok st' => runCalls perMinute perHour st' l2
        | .error r => .error r := by
  induction l1 generalizing st with
  | nil => rfl
  | cons t ts ih =>
    rw [List.cons_append, runCalls, runCalls]
    cases check_rate_limit perMinute perHour t st with
    | ok st' => exact ih st'
    | error r => rfl

theorem runCalls_admits (perMinute perHour bound : ℕ) (pre ts : List ℕ)
    (hchain : List.Chain' (· < ·) (pre ++ ts))
    (hwin : ∀ x ∈ pre ++ ts, bound ≤ x + 60)
    (hlt : ∀ x ∈ pre ++ ts, x < bound)
    (hmin : pre.length + ts.length ≤ perMinute)
    (hhr : pre.length + ts.length ≤ perHour) :
    runCalls perMinute perHour ⟨pre, pre⟩ ts = .ok ⟨pre ++ ts, pre ++ ts⟩ := by
  induction ts generalizing pre with
  | nil => simp [runCalls]
  | cons t rest ih =>
    have hchain2 := hchain
    rw [show pre ++ t :: rest = (pre ++ [t]) ++ rest by simp] at hchain2
    have htmem : t ∈ pre ++ t :: rest := by simp
    have hprelt : ∀ x ∈ pre, x < t := by
      intro x hx
      have hpw : List.Pairwise (· < ·) (pre ++ t :: rest) :=
        List.chain'_iff_pairwise.1 hchain
      exact (List.pairwise_append.1 hpw).2.2 x hx t (by simp)
    have hcmin : zcount pre t 60 = pre.length := by
      unfold zcount
      rw [List.filter_eq_self.2]
      intro x hx
      have h1 : t ≤ x + 60 := le_trans (le_of_lt (hlt t htmem))
        (hwin x (by simp [hx]))
      have h2 : x ≤ t := le_of_lt (hprelt x hx)
      simp [h1, h2]
    have hchr : zcount pre t 3600 = pre.length := by
      unfold zcount
      rw [List.filter_eq_self.2]
      intro x hx
      have h1 : t ≤ x + 60 := le_trans (le_of_lt (hlt t htmem))
        (hwin x (by simp [hx]))
      have h2 : x ≤ t := le_of_lt (hprelt x hx)
      simp
      constructor
      · omega
      · omega
    have hnotmem : t ∉ pre := fun hmem => lt_irrefl t (hprelt t hmem)
    have hnotrim60 : ztrim (pre ++ [t]) t 60 = pre ++ [t] := by
      unfold ztrim
      rw [List.filter_eq_self.2]
      intro x hx
      rcases List.mem_append.1 hx with hx1 | hx1
      · have h1 : t < x + 60 := lt_of_lt_of_le (hlt t htmem)
          (hwin x (by simp [hx1]))
        simp
        omega
      · simp only [List.mem_singleton] at hx1
        subst hx1
        simp
    have hnotrim3600 : ztrim (pre ++ [t]) t 3600 = pre ++ [t] := by
      unfold ztrim
      rw [List.filter_eq_self.2]
      intro x hx
      rcases List.mem_append.1 hx with hx1 | hx1
      · have h1 : t < x + 60 := lt_of_lt_of_le (hlt t htmem)
          (hwin x (by simp [hx1]))
        simp
        omega
      · simp only [List.mem_singleton] at hx1
        subst hx1
        simp
    have hzadd : zaddTs pre t = pre ++ [t] := by
      unfold zaddTs
      rw [if_neg hnotmem]
    rw [runCalls]
    unfold check_rate_limit
    dsimp only
    rw [if_neg (by
      rw [hcmin]
      simp only [List.length_append, List.length_cons] at hmin
      omega)]
    rw [if_neg (by
      rw [hchr]
      simp only [List.length_append, List.length_cons] at hhr
      omega)]
    rw [hzadd, hnotrim60, hnotrim3600]
    have := ih (pre ++ [t]) hchain2
      (by intro x hx; exact hwin x (by simpa using hx))
      (by intro x hx; exact hlt x (by simpa using hx))
      (by simp only [List.length_append, List.length_cons, List.length_nil]
            at hmin ⊢
          omega)
      (by simp only [List.length_append, List.length_cons, List.length_nil]
            at hhr ⊢
          omega)
    dsimp only
    rw [this]
    simp

/-- C2 (amended): starting from an empty state, `N` checks at strictly
increasing times all within 60 seconds of a later time `tlast` (hourly
limit not binding) are all admitted, and an `(N+1)`-th check at `tlast`
raises `RateLimitExceeded` with
`retry_after = 60 - (tlast mod 60) + 1`, which lies in `[1, 61]` and is
at most 60 exactly when `tlast` is not a multiple of 60 (at a multiple
of 60 the code yields 61, so the claimed bound of 60 does not hold
there). -/
theorem rate_limiter_sliding_window (N perHour : ℕ) (ts : List ℕ) (tlast : ℕ)
    (hlen : ts.length = N)
    (hchain : List.Chain' (· < ·) (ts ++ [tlast]))
    (hspan : ∀ t ∈ ts, tlast ≤ t + 60)
    (hhour : N < perHour) :
    runCalls N perHour ⟨[], []⟩ ts = .ok ⟨ts, ts⟩
    ∧ runCalls N perHour ⟨[], []⟩ (ts ++ [tlast])
        = .error (60 - tlast % 60 + 1)
    ∧ 1 ≤ 60 - tlast % 60 + 1
    ∧ 60 - tlast % 60 + 1 ≤ 61
    ∧ (tlast % 60 ≠ 0 → 60 - tlast % 60 + 1 ≤ 60) := by
  have hchain' : List.Chain' (· < ·) ts :=
    (List.chain'_append.1 hchain).1
  have hltlast : ∀ t ∈ ts, t < tlast := by
    intro t ht
    have hpw : List.Pairwise (· < ·) (ts ++ [tlast]) :=
      List.chain'_iff_pairwise.1 hchain
    exact (List.pairwise_append.1 hpw).2.2 t ht tlast (by simp)
  have hfirstok : runCalls N perHour ⟨[], []⟩ ts = .ok ⟨ts, ts⟩ := by
    have := runCalls_admits N perHour tlast [] ts
      (by simpa using hchain')
      (by simpa using hspan)
      (by simpa using hltlast)
      (by simp [hlen])
      (by simp; omega)
    simpa using this
  refine ⟨hfirstok, ?_, by omega, by omega, by omega⟩
  rw [runCalls_append]
  rw [hfirstok]
  dsimp only
  rw [runCalls]
  unfold check_rate_limit
  dsimp only
  rw [if_pos (by
    unfold zcount
    rw [List.filter_eq_self.2 (by
      intro x hx
      have h1 := hspan x hx
      have h2 := hltlast x hx
      simp
      omega)]
    omega)]

/-- Witness for C2 with limit 1: a call at t=30 is admitted; the next
call at t=61 (inside the first call's window) is rejected with
retry_after = 60 - 1 + 1 = 60. -/
theorem rate_limiter_sliding_window_witness :
    runCalls 1 1000 ⟨[], []⟩ [30] = .ok ⟨[30], [30]⟩
    ∧ runCalls 1 1000 ⟨[], []⟩ [30, 61] = .error 60 := by
  have h := rate_limiter_sliding_window 1 1000 [30] 61 rfl
    (by simp) (by intro t ht; simp at ht; omega) (by omega)
  exact ⟨h.1, h.2.1⟩

/-- C2 counterexample to the claim as stated: with per-minute limit 1,
admission at t=30 and a rejected check at t=60 (a multiple of 60) the
code computes `retry_after = int(60 - 60 % 60) + 1 = 61 > 60`,
contradicting the claimed bound `retry_after ≤ 60`. -/
theorem rate_limiter_retry_after_61 :
    runCalls 1 1000 ⟨[], []⟩ [30, 60] = .error 61 ∧ ¬ (61 : ℕ) ≤ 60 := by
  constructor
  · rfl
  · omega

/-! ### PII detector, detailed mode (`app/pii/detector.py`)

The spaCy pipeline is an oracle: its entities arrive as labelled spans.
`detect_patterns`' regex output is likewise quantified over, so the
theorems hold for every input text. -/

/-- One spaCy entity (`ent.label_`, `ent.text`, `ent.start_char`,
`ent.end_char`). -/
structure NEREnt where
  label : String
  text : List Char
  start : ℕ
  stop : ℕ
deriving DecidableEq, Repr

/-- `entity_type_map` from `_detect_detailed`. -/
def nerLabelMap (label : String) : Option PIITypeM :=
  if label = "PERSON" then some .PERSON
  else if label = "ORG" then some .ORGANIZATION
  else if label = "GPE" then some .LOCATION
  else if label = "LOC" then some .LOCATION
  else if label = "MONEY" then some .AMOUNT
  else if label = "DATE" then some .DATE
  else none

/-- Span-intersection check of `_detect_detailed` (an NER candidate is
discarded when it overlaps any entity collected so far). -/
def overlapsExisting (es : List PIIEntityM) (s e : ℕ) : Bool :=
  es.any (fun ex => (ex.start ≤ s ∧ s < ex.stop) ∨ (ex.start < e ∧ e ≤ ex.stop))

/-- The NER-extension loop of `_detect_detailed`: mapped labels are
appended unless they overlap an already-collected entity; confidence is
0.8 for PERSON/ORG labels and 0.9 otherwise. -/
def extendWithNer (acc : List PIIEntityM) : List NEREnt → List PIIEntityM
  | [] => acc
  | ent :: rest =>
    match nerLabelMap ent.label with
    | none => extendWithNer acc rest
    | some ty =>
      if overlapsExisting acc ent.start ent.stop then extendWithNer acc rest
      else
        extendWithNer (acc ++ [PIIEntityM.mk ty ent.text ent.start ent.stop
          (if ent.label = "PERSON" ∨ ent.label = "ORG"
            then (8 : ℚ)/10 else (9 : ℚ)/10)]) rest

/-- Comparison key of `entities.sort(key=lambda e: e.start)`. -/
def startLe (a b : PIIEntityM) : Prop := a.start ≤ b.start

instance : DecidableRel startLe := fun a b => Nat.decLe a.start b.start

instance : IsTotal PIIEntityM startLe := ⟨fun a b => Nat.le_total a.start b.start⟩

instance : IsTrans PIIEntityM startLe := ⟨fun _ _ _ => Nat.le_trans⟩

/-- The merge loop of `_detect_detailed`, with the growing `merged` list
kept reversed in the accumulator (`last = merged[-1]` is the head): on
overlap (`entity.start < last.end`) the higher-confidence entity replaces
the last element, otherwise the entity is appended. -/
def mergeRev : List PIIEntityM → List PIIEntityM → List PIIEntityM
  | acc, [] => acc.reverse
  | [], e :: rest => mergeRev [e] rest
  | last :: prev, e :: rest =>
    if e.start < last.stop then
      if last.confidence < e.confidence then mergeRev (e :: prev) rest
      else mergeRev (last :: prev) rest
    else mergeRev (e :: last :: prev) rest

/-- `PIIDetector._detect_detailed`, over the regex-entity and NER
oracles: extend, sort by start, merge overlaps. -/
def detect_detailed (patternEntities : List PIIEntityM)
    (nerEnts : List NEREnt) : List PIIEntityM :=
  mergeRev [] (List.insertionSort startLe (extendWithNer patternEntities nerEnts))

/-- Non-overlap of adjacent output entities, reversed form for the
accumulator. -/
def revNonov (a b : PIIEntityM) : Prop := b.stop ≤ a.start

/-- Reversed sortedness for the accumulator. -/
def revStartLe (a b : PIIEntityM) : Prop := b.start ≤ a.start

theorem mergeRev_invariant (rest : List PIIEntityM) :
    ∀ acc : List PIIEntityM,
    List.Chain' revNonov acc →
    List.Chain' revStartLe acc →
    List.Pairwise startLe rest →
    (∀ h ∈ acc.head?, ∀ e ∈ rest, h.start ≤ e.start) →
    List.Chain' (fun a b => a.stop ≤ b.start) (mergeRev acc rest)
      ∧ List.Chain' startLe (mergeRev acc rest) := by
  induction rest with
  | nil =>
    intro acc h1 h2 _ _
    rw [mergeRev]
    constructor
    · rw [List.chain'_reverse]
      exact h1
    · rw [List.chain'_reverse]
      exact h2
  | cons e rest ih =>
    intro acc h1 h2 h3 h4
    have h3' : List.Pairwise startLe rest := (List.pairwise_cons.1 h3).2
    have h3head : ∀ f ∈ rest, e.start ≤ f.start := (List.pairwise_cons.1 h3).1
    match acc with
    | [] =>
      rw [mergeRev]
      exact ih [e] (List.chain'_singleton e) (List.chain'_singleton e) h3'
        (by
          intro h hh f hf
          simp only [List.head?_cons, Option.mem_def, Option.some.injEq] at hh
          subst hh
          exact h3head f hf)
    | last :: prev =>
      have hle : last.start ≤ e.start := h4 last (by simp) e (by simp)
      have hprevstop : ∀ p ∈ prev.head?, p.stop ≤ e.start := by
        intro p hp
        have : revNonov last p := by
          rcases prev with _ | ⟨q, prev'⟩
          · simp at hp
          · simp only [List.head?_cons, Option.mem_def, Option.some.injEq] at hp
            subst hp
            exact (List.chain'_cons.1 h1).1
        exact le_trans this hle
      have hprevstart : ∀ p ∈ prev.head?, p.start ≤ e.start := by
        intro p hp
        have : revStartLe last p := by
          rcases prev with _ | ⟨q, prev'⟩
          · simp at hp
          · simp only [List.head?_cons, Option.mem_def, Option.some.injEq] at hp
            subst hp
            exact (List.chain'_cons.1 h2).1
        exact le_trans this hle
      rw [mergeRev]
      split
      · split
        · -- overlap, replace last with e
          refine ih (e :: prev) ?_ ?_ h3' ?_
          · rcases prev with _ | ⟨q, prev'⟩
            · simp
            · exact List.chain'_cons.2
                ⟨hprevstop q (by simp), (List.chain'_cons.1 h1).2⟩
          · rcases prev with _ | ⟨q, prev'⟩
            · simp
            · exact List.chain'_cons.2
                ⟨hprevstart q (by simp), (List.chain'_cons.1 h2).2⟩
          · intro h hh f hf
            simp only [List.head?_cons, Option.mem_def, Option.some.injEq] at hh
            subst hh
            exact h3head f hf
        · -- overlap, keep last
          refine ih (last :: prev) h1 h2 h3' ?_
          intro h hh f hf
          simp only [List.head?_cons, Option.mem_def, Option.some.injEq] at hh
          subst hh
          exact le_trans hle (h3head f hf)
      · -- no overlap, push e
        next hnov =>
        refine ih (e :: last :: prev) ?_ ?_ h3' ?_
        · exact List.chain'_cons.2 ⟨le_of_not_lt hnov, h1⟩
        · exact List.chain'_cons.2 ⟨hle, h2⟩
        · intro h hh f hf
          simp only [List.head?_cons, Option.mem_def, Option.some.injEq] at hh
          subst hh
          exact h3head f hf

/-- C10: for every regex-entity list and every NER-entity list (hence for
every input text), the detailed-detection output is sorted by start
offset and adjacent entities never overlap: each entity's start is at
least the previous entity's end. -/
theorem detect_detailed_sorted_nonoverlapping
    (patternEntities : List PIIEntityM) (nerEnts : List NEREnt) :
    List.Chain' (fun a b => a.stop ≤ b.start)
      (detect_detailed patternEntities nerEnts)
    ∧ List.Chain' (fun a b => a.start ≤ b.start)
      (detect_detailed patternEntities nerEnts) := by
  unfold detect_detailed
  have hsorted : List.Pairwise startLe
      (List.insertionSort startLe (extendWithNer patternEntities nerEnts)) :=
    List.sorted_insertionSort startLe _
  have := mergeRev_invariant
    (List.insertionSort startLe (extendWithNer patternEntities nerEnts)) []
    List.chain'_nil List.chain'_nil hsorted (by simp)
  exact ⟨this.1, this.2⟩

/-! ### Pipeline prefix (`app/services/gateway_service.py`, steps 1-6)

`process_request` up to and including the semantic-cache lookup, with
the collaborators as oracles.  The function returns the list of cache
keys queried (step 6) alongside where the run got to; messages are
modelled by their `content` strings. -/

/-- Oracle outcomes of the pipeline's collaborators for one request. -/
structure PipelineOracles where
  /-- `some retry` when `rate_limiter.check_rate_limit` raises. -/
  rateLimitError : Option ℕ
  /-- `pii_detector.detect(text_content, detection_mode).entities`. -/
  detectEntities : List PIIEntityM
  /-- `guardrail_engine.check(text=text_content, pii_entities=...)`. -/
  guardrail : GuardrailResultM
  /-- `pii_masker.mask(text_content, pii_entities)`. -/
  maskResult : List Char × List Char
  /-- `config_manager.get("pii.masking.enabled", True)`. -/
  maskingEnabled : Bool
  /-- `config_manager.get("cache.enabled", True)`. -/
  cacheEnabled : Bool
  /-- Whether `semantic_cache.get` returns a stored response. -/
  cacheReturns : Bool

/-- Where the modelled prefix of the pipeline ended. -/
inductive PipePrefixOutcome where
  | rateLimited (retryAfter : ℕ)
  | blocked
  | reachedCache (outgoingMessages : List (List Char)) (cacheHit : Bool)
deriving DecidableEq, Repr

/-- Steps 1-6 of `GatewayService.process_request`: rate limit, join the
message contents with single spaces, detect PII, input guardrails (block
when `should_block`), mask (rewriting only the last message's content
with the masked text), then the cache lookup keyed by the ORIGINAL
`text_content`.  Returns the queried cache keys and the outcome. -/
def process_request_gates (o : PipelineOracles)
    (messages : List (List Char)) :
    List (List Char) × PipePrefixOutcome :=
  match o.rateLimitError with
  | some r => ([], .rateLimited r)
  | none =>
    let text := List.intercalate [' '] messages
    let entities := o.detectEntities
    let piiDetected := 0 < entities.length
    if o.guardrail.passed = false ∧ o.guardrail.should_block = true then
      ([], .blocked)
    else
      let outgoing :=
        if piiDetected ∧ o.maskingEnabled = true then
          messages.enum.map (fun p =>
            if p.1 = messages.length - 1 then o.maskResult.1 else p.2)
        else messages
      if o.cacheEnabled = true then
        ([text], .reachedCache outgoing (o.cacheReturns))
      else
        ([], .reachedCache outgoing false)

/-- C3: in every pipeline run, every key handed to the semantic-cache
lookup equals the original space-joined message text — never the masked
text — whatever the rate-limit, detection, guardrail, masking and cache
oracles did. -/
theorem cache_lookup_uses_original_text (o : PipelineOracles)
    (messages : List (List Char)) :
    ∀ q ∈ (process_request_gates o messages).1,
      q = List.intercalate [' '] messages := by
  intro q hq
  unfold process_request_gates at hq
  match hrl : o.rateLimitError with
  | some r =>
    rw [hrl] at hq
    simp at hq
  | none =>
    rw [hrl] at hq
    dsimp only at hq
    split at hq
    · simp at hq
    · split at hq
      · simp only [List.mem_singleton] at hq
        exact hq
      · simp at hq

/-- Witness for C3: a run with PII detected and masking enabled still
queries the cache with the original joined text. -/
theorem cache_lookup_uses_original_text_witness :
    (process_request_gates
      ⟨none, [⟨.PHONE, "5551234567".data, 0, 10, 1⟩],
        ⟨true, [], false⟩, ("<masked>".data, "sid".data), true, true, false⟩
      ["5551234567".data, "hello".data]).1
      = [List.intercalate [' '] ["5551234567".data, "hello".data]]
    ∧ List.intercalate [' ']
        [("5551234567".data : List Char), "hello".data]
      = "5551234567 hello".data := by
  constructor
  · have h := cache_lookup_uses_original_text
      ⟨none, [⟨.PHONE, "5551234567".data, 0, 10, 1⟩],
        ⟨true, [], false⟩, ("<masked>".data, "sid".data), true, true, false⟩
      ["5551234567".data, "hello".data]
    have hshape : (process_request_gates
        ⟨none, [⟨.PHONE, "5551234567".data, 0, 10, 1⟩],
          ⟨true, [], false⟩, ("<masked>".data, "sid".data), true, true, false⟩
        ["5551234567".data, "hello".data]).1
        = [List.intercalate [' '] ["5551234567".data, "hello".data]] := by
      rfl
    have hq := h (List.intercalate [' '] ["5551234567".data, "hello".data])
      (by rw [hshape]; exact List.mem_singleton.2 rfl)
    exact hshape
  · decide

/-! ### Masking store (`app/pii/masker.py`)

`secrets.token_urlsafe`-based session ids become the parameter `sid`;
the Redis hash holding `{entity_id: original}` becomes the association
list returned by `mask` and passed to `unmask`.  Text is `List Char`. -/

/-- `f"{entity.type.value}_{idx}"`. -/
def entityId (ty : PIITypeM) (idx : ℕ) : List Char :=
  ty.str ++ ['_'] ++ natDigits idx

/-- `f"<{entity.type.value}:{session_id}:{entity_id}>"`. -/
def sentinel (ty : PIITypeM) (sid : List Char) (idx : ℕ) : List Char :=
  '<' :: ty.str ++ [':'] ++ sid ++ [':'] ++ entityId ty idx ++ ['>']

/-- Stable descending insertion by `start` (embedding of
`sorted(entities, key=lambda e: e.start, reverse=True)`). -/
def insertDesc (e : PIIEntityM) : List PIIEntityM → List PIIEntityM
  | [] => [e]
  | f :: rest =>
    if f.start < e.start then e :: f :: rest else f :: insertDesc e rest

/-- `sorted(..., key=start, reverse=True)`. -/
def sortDesc (l : List PIIEntityM) : List PIIEntityM :=
  l.foldr insertDesc []

/-- The `for idx, entity in enumerate(sorted_entities)` loop of
`PIIMasker.mask`: splice the sentinel over `[start, end)` and record
`mapping[entity_id] = entity.text`. -/
def maskLoop (sid : List Char) :
    List Char → List PIIEntityM → ℕ → List Char × List (List Char × List Char)
  | t, [], _ => (t, [])
  | t, e :: rest, idx =>
    let t' := t.take e.start ++ sentinel e.type sid idx ++ t.drop e.stop
    let res := maskLoop sid t' rest (idx + 1)
    (res.1, (entityId e.type idx, e.text) :: res.2)

/-- `PIIMasker.mask`: empty entity list short-circuits to `(text, "")`;
otherwise mask right-to-left (descending starts) under a fresh session
id and return the masked text, session id, and the stored mapping. -/
def mask (sid : List Char) (t : List Char) (entities : List PIIEntityM) :
    List Char × List Char × List (List Char × List Char) :=
  if entities = [] then (t, [], [])
  else
    let res := maskLoop sid t (sortDesc entities) 0
    (res.1, sid, res.2)

/-- `[A-Z_]` character class of the unmask pattern. -/
def charUA (c : Char) : Bool :=
  (65 ≤ c.toNat && c.toNat ≤ 90) || c.toNat == 95

/-- Leftmost match of `<([A-Z_]+):{sid}:([A-Z_]+_\d+)>` at the head of
the input, with Python's greedy semantics (for this pattern the
backtracking is determinate: each `[A-Z_]+` must take its maximal run,
with the second giving back exactly the final `_` before the digits).
Returns `(matched_text, group2, rest)`. -/
def parseSentinel (sid : List Char) : List Char → Option (List Char × List Char × List Char)
  | [] => none
  | c :: r1 =>
    if c = '<' then
      let T := r1.takeWhile charUA
      if T = [] then none
      else
        match r1.dropWhile charUA with
        | [] => none
        | c2 :: r2 =>
          if c2 = ':' then
            if sid.isPrefixOf r2 then
              match r2.drop sid.length with
              | [] => none
              | c3 :: r3 =>
                if c3 = ':' then
                  let S := r3.takeWhile charUA
                  if 2 ≤ S.length ∧ S.getLast? = some '_' then
                    let r3' := r3.dropWhile charUA
                    let D := r3'.takeWhile isAsciiDigit
                    if D = [] then none
                    else
                      match r3'.dropWhile isAsciiDigit with
                      | [] => none
                      | c4 :: r4 =>
                        if c4 = '>' then
                          some ('<' :: T ++ [':'] ++ sid ++ [':'] ++ S ++ D
                              ++ ['>'], S ++ D, r4)
                        else none
                  else none
                else none
            else none
          else none
    else none

/-- Dict lookup on the stored mapping. -/
def assocFind (m : List (List Char × List Char)) (k : List Char) :
    Option (List Char) :=
  match m with
  | [] => none
  | (k', v) :: rest => if k' = k then some v else assocFind rest k

/-- One pass of `pattern.sub(replace_match, text)`: scan left to right,
replace each leftmost non-overlapping match by `mapping[entity_id]`
(keeping the matched text when the id is unknown), never rescanning the
replacement.  `fuel` bounds the recursion; `subScan` supplies
`text.length`, which suffices since every step consumes a character. -/
def subScanF (sid : List Char) (mp : List (List Char × List Char)) :
    ℕ → List Char → List Char
  | _, [] => []
  | 0, c :: rest => c :: rest
  | fuel + 1, c :: rest =>
    match parseSentinel sid (c :: rest) with
    | some (mt, id, r) => ((assocFind mp id).getD mt) ++ subScanF sid mp fuel r
    | none => c :: subScanF sid mp fuel rest

/-- The full regex substitution. -/
def subScan (sid : List Char) (mp : List (List Char × List Char))
    (l : List Char) : List Char :=
  subScanF sid mp l.length l

/-- `PIIMasker.unmask`: empty session id or a missing/expired mapping
returns the text unchanged; otherwise substitute every sentinel of this
session by its stored original.  (The mapping is deleted from Redis
afterwards; only the returned text matters here.) -/
def unmask (t : List Char) (sid : List Char)
    (stored : Option (List (List Char × List Char))) : List Char :=
  if sid = [] then t
  else
    match stored with
    | none => t
    | some mp => subScan sid mp t

/-! Helper lemmas for the mask/unmask round trip. -/

theorem takeWhile_append_all {p : Char → Bool} (a b : List Char)
    (h : ∀ c ∈ a, p c = true) :
    (a ++ b).takeWhile p = a ++ b.takeWhile p := by
  induction a with
  | nil => simp
  | cons c rest ih =>
    rw [List.cons_append, List.takeWhile_cons, h c (by simp)]
    rw [ih (fun d hd => h d (by simp [hd]))]
    simp

theorem dropWhile_append_all {p : Char → Bool} (a b : List Char)
    (h : ∀ c ∈ a, p c = true) :
    (a ++ b).dropWhile p = b.dropWhile p := by
  induction a with
  | nil => simp
  | cons c rest ih =>
    rw [List.cons_append, List.dropWhile_cons, h c (by simp)]
    simp only [if_pos rfl]
    exact ih (fun d hd => h d (by simp [hd]))

theorem takeWhile_cons_false {p : Char → Bool} (c : Char) (l : List Char)
    (h : p c = false) : (c :: l).takeWhile p = [] := by
  rw [List.takeWhile_cons, h]
  simp

theorem dropWhile_cons_false {p : Char → Bool} (c : Char) (l : List Char)
    (h : p c = false) : (c :: l).dropWhile p = c :: l := by
  rw [List.dropWhile_cons, h]
  simp

theorem charUA_colon : charUA ':' = false := by decide

theorem charUA_of_digit (c : Char) (h : isAsciiDigit c = true) :
    charUA c = false := by
  unfold isAsciiDigit at h
  unfold charUA
  simp only [Bool.and_eq_true, decide_eq_true_eq] at h
  simp only [Bool.or_eq_false_iff, Bool.and_eq_false_iff,
    decide_eq_false_iff_not, beq_eq_false_iff_ne, ne_eq]
  omega

theorem charUA_underscore : charUA '_' = true := by decide

/-- Every `PIIType.value` string is a non-empty `[A-Z_]+` run. -/
theorem str_ne_nil (ty : PIITypeM) : ty.str ≠ [] := by
  cases ty <;> decide

theorem str_all_charUA (ty : PIITypeM) : ∀ c ∈ ty.str, charUA c = true := by
  cases ty <;> decide

theorem parseSentinel_not_lt (sid : List Char) (c : Char) (l : List Char)
    (h : ¬ c = '<') : parseSentinel sid (c :: l) = none := by
  unfold parseSentinel
  dsimp only
  rw [if_neg h]

/-- A successful parse consumed exactly the matched text. -/
theorem parseSentinel_sound (sid : List Char) (l mt id r : List Char)
    (h : parseSentinel sid l = some (mt, id, r)) : l = mt ++ r ∧ mt ≠ [] := by
  match l with
  | [] => simp [parseSentinel] at h
  | c :: r1 =>
    unfold parseSentinel at h
    dsimp only at h
    by_cases hc : c = '<'
    case neg =>
      rw [if_neg hc] at h
      simp at h
    rw [if_pos hc] at h
    subst hc
    split at h
    · simp at h
    · split at h
      · simp at h
      · next c2 r2 hdrop1 =>
        split at h
        · next hc2 =>
          subst hc2
          split at h
          · next hpre =>
            split at h
            · simp at h
            · next c3 r3 hdrop2 =>
              split at h
              · next hc3 =>
                subst hc3
                split at h
                · next hS =>
                  split at h
                  · simp at h
                  · split at h
                    · simp at h
                    · next c4 r4 hdrop3 =>
                      split at h
                      · next hc4 =>
                        subst hc4
                        simp only [Option.some.injEq, Prod.mk.injEq] at h
                        obtain ⟨hmt, hid, hr⟩ := h
                        subst hmt hid hr
                        constructor
                        · obtain ⟨tail, htail⟩ :=
                            List.isPrefixOf_iff_prefix.1 hpre
                          have hr2tail : r2.drop sid.length = tail := by
                            rw [← htail, List.drop_left]
                          rw [hr2tail] at hdrop2
                          subst hdrop2
                          subst htail
                          set T := List.takeWhile charUA r1 with hT
                          set S := List.takeWhile charUA r3 with hSdef
                          set D := List.takeWhile isAsciiDigit
                            (List.dropWhile charUA r3) with hD
                          have h4 : List.dropWhile charUA r3
                              = D ++ ('>' :: r4) := by
                            conv_lhs => rw [← List.takeWhile_append_dropWhile
                              isAsciiDigit (List.dropWhile charUA r3)]
                            rw [hdrop3, ← hD]
                          have h3 : r3 = S ++ (D ++ ('>' :: r4)) := by
                            conv_lhs => rw [← List.takeWhile_append_dropWhile
                              charUA r3]
                            rw [h4, ← hSdef]
                          have h1 : r1 = T ++ (':' :: (sid ++ (':' :: r3))) := by
                            conv_lhs => rw [← List.takeWhile_append_dropWhile
                              charUA r1]
                            rw [hdrop1, ← hT]
                          rw [h3] at h1
                          rw [h1]
                          simp
                        · simp
                      · simp at h
                · simp at h
              · simp at h
          · simp at h
        · simp at h

theorem parseSentinel_length (sid : List Char) (l mt id r : List Char)
    (h : parseSentinel sid l = some (mt, id, r)) : r.length < l.length := by
  obtain ⟨heq, hne⟩ := parseSentinel_sound sid l mt id r h
  rw [heq, List.length_append]
  have := List.length_pos.2 hne
  omega

/-- A sentinel at the head of the input parses to exactly itself, its
entity id, and the remainder — for every session id and every tail. -/
theorem parseSentinel_sentinel (ty : PIITypeM) (sid : List Char) (idx : ℕ)
    (rest : List Char) :
    parseSentinel sid (sentinel ty sid idx ++ rest)
      = some (sentinel ty sid idx, entityId ty idx, rest) := by
  obtain ⟨d, ds, hnd⟩ := List.exists_cons_of_ne_nil (natDigits_ne_nil idx)
  have hddigit : isAsciiDigit d = true :=
    natDigits_all_digit idx d (by rw [hnd]; simp)
  have hstrall := str_all_charUA ty
  have hr1 : sentinel ty sid idx ++ rest
      = '<' :: (ty.str ++ ':' :: (sid ++ ':' :: (ty.str ++ '_'
        :: (natDigits idx ++ '>' :: rest)))) := by
    simp [sentinel, entityId]
  rw [hr1]
  unfold parseSentinel
  dsimp only
  rw [if_pos rfl]
  have hT : List.takeWhile charUA (ty.str ++ ':' :: (sid ++ ':' :: (ty.str
      ++ '_' :: (natDigits idx ++ '>' :: rest)))) = ty.str := by
    rw [takeWhile_append_all _ _ hstrall,
      takeWhile_cons_false _ _ charUA_colon, List.append_nil]
  have hDrop1 : List.dropWhile charUA (ty.str ++ ':' :: (sid ++ ':'
      :: (ty.str ++ '_' :: (natDigits idx ++ '>' :: rest))))
      = ':' :: (sid ++ ':' :: (ty.str ++ '_' :: (natDigits idx
        ++ '>' :: rest))) := by
    rw [dropWhile_append_all _ _ hstrall,
      dropWhile_cons_false _ _ charUA_colon]
  rw [hT, hDrop1]
  rw [if_neg (by simpa using str_ne_nil ty)]
  dsimp only
  rw [if_pos rfl]
  rw [if_pos (List.isPrefixOf_iff_prefix.2 ⟨_, rfl⟩)]
  rw [List.drop_left]
  dsimp only
  rw [if_pos rfl]
  have hS : List.takeWhile charUA (ty.str ++ '_' :: (natDigits idx
      ++ '>' :: rest)) = ty.str ++ ['_'] := by
    rw [takeWhile_append_all _ _ hstrall, List.takeWhile_cons,
      charUA_underscore, hnd, List.cons_append,
      takeWhile_cons_false _ _ (charUA_of_digit d hddigit)]
    simp
  have hDrop2 : List.dropWhile charUA (ty.str ++ '_' :: (natDigits idx
      ++ '>' :: rest)) = natDigits idx ++ '>' :: rest := by
    have hall : ∀ c ∈ ty.str ++ ['_'], charUA c = true := by
      intro c hc
      rcases List.mem_append.1 hc with h1 | h1
      · exact hstrall c h1
      · simp only [List.mem_singleton] at h1
        subst h1
        exact charUA_underscore
    rw [show ty.str ++ '_' :: (natDigits idx ++ '>' :: rest)
        = (ty.str ++ ['_']) ++ (natDigits idx ++ '>' :: rest) by simp]
    rw [dropWhile_append_all _ _ hall, hnd, List.cons_append,
      dropWhile_cons_false _ _ (charUA_of_digit d hddigit),
      ← List.cons_append, ← hnd]
  rw [hS, hDrop2]
  rw [if_pos (by
    constructor
    · have := List.length_pos.2 (str_ne_nil ty)
      simp only [List.length_append, List.length_singleton]
      omega
    · exact List.getLast?_concat _)]
  have hD : List.takeWhile isAsciiDigit (natDigits idx ++ '>' :: rest)
      = natDigits idx := by
    rw [takeWhile_append_all _ _ (natDigits_all_digit idx),
      takeWhile_cons_false _ _ (by decide : isAsciiDigit '>' = false),
      List.append_nil]
  have hDrop3 : List.dropWhile isAsciiDigit (natDigits idx ++ '>' :: rest)
      = '>' :: rest := by
    rw [dropWhile_append_all _ _ (natDigits_all_digit idx),
      dropWhile_cons_false _ _ (by decide : isAsciiDigit '>' = false)]
  rw [hD, hDrop3]
  rw [if_neg (by simpa using natDigits_ne_nil idx)]
  dsimp only
  rw [if_pos rfl]
  simp [sentinel, entityId]

/-- Enough fuel behaves like exactly enough fuel. -/
theorem subScanF_of_le (sid : List Char) (mp : List (List Char × List Char))
    (fuel : ℕ) :
    ∀ l : List Char, l.length ≤ fuel →
      subScanF sid mp fuel l = subScan sid mp l := by
  induction fuel using Nat.strong_induction_on with
  | _ fuel ih =>
    intro l hl
    match fuel, l with
    | fuel, [] =>
      cases fuel <;> rfl
    | 0, c :: rest => simp at hl
    | f + 1, c :: rest =>
      simp only [List.length_cons] at hl
      unfold subScan
      rw [show (c :: rest).length = rest.length + 1 from rfl]
      rw [subScanF, subScanF]
      cases hp : parseSentinel sid (c :: rest) with
      | none =>
        rw [ih f (by omega) rest (by omega)]
        rw [ih rest.length (by omega) rest (by omega)]
      | some v =>
        obtain ⟨mt, id, r⟩ := v
        have hlen := parseSentinel_length sid _ mt id r hp
        simp only [List.length_cons] at hlen
        dsimp only
        rw [ih f (by omega) r (by omega)]
        rw [ih rest.length (by omega) r (by omega)]

/-- Scanning a segment free of `<` copies it unchanged. -/
theorem subScan_append_no_lt (sid : List Char)
    (mp : List (List Char × List Char)) (seg rest : List Char)
    (h : ∀ c ∈ seg, ¬ c = '<') :
    subScan sid mp (seg ++ rest) = seg ++ subScan sid mp rest := by
  induction seg with
  | nil => simp
  | cons c seg' ih =>
    rw [List.cons_append]
    unfold subScan
    rw [show (c :: (seg' ++ rest)).length = (seg' ++ rest).length + 1 from rfl]
    rw [subScanF]
    rw [parseSentinel_not_lt sid c _ (h c (by simp))]
    dsimp only
    rw [show subScanF sid mp (seg' ++ rest).length (seg' ++ rest)
        = subScan sid mp (seg' ++ rest) from rfl]
    rw [ih (fun x hx => h x (by simp [hx]))]
    rfl

/-- Scanning a sentinel substitutes the stored original (or keeps the
sentinel when the id is unknown) and continues after it. -/
theorem subScan_sentinel_head (sid : List Char)
    (mp : List (List Char × List Char)) (ty : PIITypeM) (idx : ℕ)
    (rest : List Char) :
    subScan sid mp (sentinel ty sid idx ++ rest)
      = ((assocFind mp (entityId ty idx)).getD (sentinel ty sid idx))
        ++ subScan sid mp rest := by
  have hp := parseSentinel_sentinel ty sid idx rest
  obtain ⟨Z, hZ⟩ : ∃ Z, sentinel ty sid idx = '<' :: Z := ⟨_, rfl⟩
  rw [hZ, List.cons_append]
  unfold subScan
  rw [show ('<' :: (Z ++ rest)).length = (Z ++ rest).length + 1 from rfl]
  rw [subScanF]
  rw [← List.cons_append, ← hZ, hp]
  dsimp only
  congr 1
  apply subScanF_of_le
  simp

/-- Normal form of the masked text for entities listed in ascending
start order: alternating original segments and sentinels.  `o` is the
absolute offset of the head of `t`; the entity at position `j` from the
end carries index `j` (matching the reverse-order enumeration of
`maskLoop`). -/
def buildMasked (sid : List Char) : List Char → ℕ → List PIIEntityM → List Char
  | t, _, [] => t
  | t, o, e :: rest =>
    t.take (e.start - o) ++ sentinel e.type sid rest.length
      ++ buildMasked sid (t.drop (e.stop - o)) e.stop rest

/-- The mapping produced for ascending entities (last entity gets
index 0, matching the descending processing order of `maskLoop`). -/
def mappingAsc : List PIIEntityM → List (List Char × List Char)
  | [] => []
  | e :: rest => mappingAsc rest ++ [(entityId e.type rest.length, e.text)]

theorem insertDesc_all_ge (e : PIIEntityM) (l : List PIIEntityM)
    (h : ∀ f ∈ l, ¬ f.start < e.start) : insertDesc e l = l ++ [e] := by
  induction l with
  | nil => rfl
  | cons f rest ih =>
    rw [insertDesc]
    rw [if_neg (h f (by simp))]
    rw [ih (fun g hg => h g (by simp [hg]))]
    rfl

/-- `a.start < b.start` between entities, for transitive chains. -/
def startLt (a b : PIIEntityM) : Prop := a.start < b.start

instance : IsTrans PIIEntityM startLt := ⟨fun _ _ _ => Nat.lt_trans⟩

/-- On a strictly-ascending list, the descending sort is the reverse. -/
theorem sortDesc_of_ascending (l : List PIIEntityM)
    (h : List.Pairwise startLt l) : sortDesc l = l.reverse := by
  induction l with
  | nil => rfl
  | cons e rest ih =>
    have h' := (List.pairwise_cons.1 h).2
    have hhead := (List.pairwise_cons.1 h).1
    show insertDesc e (sortDesc rest) = (e :: rest).reverse
    rw [ih h']
    rw [insertDesc_all_ge e rest.reverse (by
      intro f hf
      have := hhead f (List.mem_reverse.1 hf)
      unfold startLt at this
      omega)]
    simp

theorem maskLoop_append (sid : List Char) (t : List Char)
    (l1 l2 : List PIIEntityM) (i : ℕ) :
    maskLoop sid t (l1 ++ l2) i
      = ((maskLoop sid (maskLoop sid t l1 i).1 l2 (i + l1.length)).1,
         (maskLoop sid t l1 i).2
           ++ (maskLoop sid (maskLoop sid t l1 i).1 l2 (i + l1.length)).2) := by
  induction l1 generalizing t i with
  | nil => simp [maskLoop]
  | cons e rest ih =>
    rw [List.cons_append, maskLoop, maskLoop]
    dsimp only
    rw [ih]
    simp only [List.length_cons, List.cons_append]
    rw [show i + (rest.length + 1) = i + 1 + rest.length by omega]

theorem buildMasked_take (sid : List Char) (t : List Char) (o k : ℕ)
    (l : List PIIEntityM)
    (hk : ∀ e ∈ l.head?, k ≤ e.start - o)
    (hkt : k ≤ t.length) :
    (buildMasked sid t o l).take k = t.take k := by
  match l with
  | [] => rfl
  | e :: rest =>
    rw [buildMasked]
    have hke : k ≤ e.start - o := hk e (by simp)
    rw [List.append_assoc]
    rw [List.take_append_of_le_length (by
      rw [List.length_take]
      omega)]
    rw [List.take_take, min_eq_left hke]

theorem buildMasked_drop (sid : List Char) (t : List Char) (o d : ℕ)
    (l : List PIIEntityM)
    (ho : o ≤ d)
    (hd : ∀ e ∈ l.head?, d ≤ e.start)
    (hstart : ∀ e ∈ l.head?, e.start - o ≤ t.length)
    (hses : ∀ e ∈ l.head?, e.start ≤ e.stop) :
    (buildMasked sid t o l).drop (d - o)
      = buildMasked sid (t.drop (d - o)) d l := by
  match l with
  | [] => rfl
  | e :: rest =>
    rw [buildMasked, buildMasked]
    have hde : d ≤ e.start := hd e (by simp)
    have hst : e.start - o ≤ t.length := hstart e (by simp)
    have hse : e.start ≤ e.stop := hses e (by simp)
    rw [List.append_assoc, List.drop_append_of_le_length (by
      rw [List.length_take]
      omega)]
    rw [List.drop_take]
    rw [show e.start - o - (d - o) = e.start - d by omega]
    rw [List.drop_drop]
    rw [show d - o + (e.stop - d) = e.stop - o by omega]
    rw [List.append_assoc]

/-- `maskLoop` over the reverse of an ascending, non-overlapping,
in-bounds entity list produces the interleaved normal form and the
ascending mapping. -/
theorem maskLoop_reverse_eq_buildMasked (sid : List Char) (t : List Char)
    (l : List PIIEntityM)
    (hchain : List.Chain' (fun a b => a.stop ≤ b.start) l)
    (hbound : ∀ e ∈ l, e.start < e.stop ∧ e.stop ≤ t.length) :
    maskLoop sid t l.reverse 0 = (buildMasked sid t 0 l, mappingAsc l) := by
  induction l generalizing t with
  | nil => rfl
  | cons e rest ih =>
    have hchain' := (List.chain'_cons'.1 hchain).2
    have hheadrel := (List.chain'_cons'.1 hchain).1
    have hbe := hbound e (by simp)
    rw [List.reverse_cons, maskLoop_append]
    have hrest : maskLoop sid t rest.reverse 0
        = (buildMasked sid t 0 rest, mappingAsc rest) :=
      ih t hchain' (fun f hf => hbound f (List.mem_cons_of_mem _ hf))
    rw [hrest]
    dsimp only
    have hheadge : ∀ f ∈ rest.head?, e.stop ≤ f.start := by
      intro f hf
      exact hheadrel f hf
    rw [maskLoop]
    dsimp only
    rw [maskLoop]
    dsimp only
    have htake : (buildMasked sid t 0 rest).take e.start = t.take e.start := by
      apply buildMasked_take
      · intro f hf
        have := hheadge f hf
        omega
      · omega
    have hdrop : (buildMasked sid t 0 rest).drop e.stop
        = buildMasked sid (t.drop e.stop) e.stop rest := by
      have := buildMasked_drop sid t 0 e.stop rest (by omega)
        (fun f hf => hheadge f hf)
        (by
          intro f hf
          rcases rest with _ | ⟨g, rest'⟩
          · simp at hf
          · simp only [List.head?_cons, Option.mem_def, Option.some.injEq] at hf
            have hb := hbound g (by simp)
            rw [← hf]
            omega)
        (by
          intro f hf
          rcases rest with _ | ⟨g, rest'⟩
          · simp at hf
          · simp only [List.head?_cons, Option.mem_def, Option.some.injEq] at hf
            have hb := hbound g (by simp)
            rw [← hf]
            omega)
      simpa using this
    rw [htake, hdrop]
    rw [buildMasked]
    simp only [List.length_reverse, Nat.zero_add, Nat.sub_zero, mappingAsc,
      List.append_assoc]

/-- Equal lists decomposed as all-digit prefix plus non-digit-headed
suffix have equal prefixes (used for entity-id injectivity). -/
theorem digit_prefix_eq (x : List Char) :
    ∀ (y u v : List Char), x ++ u = y ++ v →
    (∀ c ∈ x, isAsciiDigit c = true) →
    (∀ c ∈ y, isAsciiDigit c = true) →
    (∀ c ∈ u.head?, isAsciiDigit c = false) →
    (∀ c ∈ v.head?, isAsciiDigit c = false) →
    x = y := by
  induction x with
  | nil =>
    intro y u v h _ hy hu _
    cases y with
    | nil => rfl
    | cons c y' =>
      exfalso
      simp only [List.nil_append] at h
      have hhead : u.head? = some c := by
        rw [h]
        rfl
      have h1 := hu c (by rw [hhead]; rfl)
      have h2 := hy c (by simp)
      rw [h1] at h2
      exact Bool.false_ne_true h2
  | cons c x' ih =>
    intro y u v h hx hy hu hv
    cases y with
    | nil =>
      exfalso
      simp only [List.nil_append] at h
      have hhead : v.head? = some c := by
        rw [← h]
        rfl
      have h1 := hv c (by rw [hhead]; rfl)
      have h2 := hx c (by simp)
      rw [h1] at h2
      exact Bool.false_ne_true h2
    | cons d y' =>
      simp only [List.cons_append, List.cons.injEq] at h
      obtain ⟨rfl, h2⟩ := h
      rw [ih y' u v h2 (fun a ha => hx a (by simp [ha]))
        (fun a ha => hy a (by simp [ha])) hu hv]

/-- Distinct loop indices give distinct entity ids, whatever the types:
the decimal suffix after the final underscore determines the index. -/
theorem entityId_inj_idx (ty1 ty2 : PIITypeM) (i j : ℕ)
    (h : entityId ty1 i = entityId ty2 j) : i = j := by
  have hrev : (natDigits i).reverse ++ ('_' :: ty1.str.reverse)
      = (natDigits j).reverse ++ ('_' :: ty2.str.reverse) := by
    have := congrArg List.reverse h
    simpa [entityId, List.reverse_append] using this
  have hx : (natDigits i).reverse = (natDigits j).reverse := by
    apply digit_prefix_eq _ _ _ _ hrev
    · intro c hc
      exact natDigits_all_digit i c (List.mem_reverse.1 hc)
    · intro c hc
      exact natDigits_all_digit j c (List.mem_reverse.1 hc)
    · intro c hc
      simp only [List.head?_cons, Option.mem_def, Option.some.injEq] at hc
      rw [← hc]
      decide
    · intro c hc
      simp only [List.head?_cons, Option.mem_def, Option.some.injEq] at hc
      rw [← hc]
      decide
  exact natDigits_injective (List.reverse_injective hx)

theorem assocFind_append (m1 m2 : List (List Char × List Char))
    (k : List Char) :
    assocFind (m1 ++ m2) k
      = match assocFind m1 k with
        | some v => some v
        | none => assocFind m2 k := by
  induction m1 with
  | nil => rfl
  | cons kv rest ih =>
    obtain ⟨k', v⟩ := kv
    rw [List.cons_append, assocFind, assocFind]
    by_cases hk : k' = k
    · rw [if_pos hk, if_pos hk]
    · rw [if_neg hk, if_neg hk, ih]

theorem assocFind_eq_none (m : List (List Char × List Char)) (k : List Char)
    (h : ∀ kv ∈ m, ¬ kv.1 = k) : assocFind m k = none := by
  induction m with
  | nil => rfl
  | cons kv rest ih =>
    obtain ⟨k', v⟩ := kv
    rw [assocFind, if_neg (h (k', v) (by simp))]
    exact ih (fun x hx => h x (by simp [hx]))

theorem mappingAsc_keys (l : List PIIEntityM) :
    ∀ kv ∈ mappingAsc l, ∃ ty k, k < l.length ∧ kv.1 = entityId ty k := by
  induction l with
  | nil => simp [mappingAsc]
  | cons e rest ih =>
    intro kv hkv
    rw [mappingAsc] at hkv
    rcases List.mem_append.1 hkv with h1 | h1
    · obtain ⟨ty, k, hk, hkv1⟩ := ih kv h1
      exact ⟨ty, k, by simp; omega, hkv1⟩
    · simp only [List.mem_singleton] at h1
      subst h1
      exact ⟨e.type, rest.length, by simp, rfl⟩

/-- Every entity of the list can be looked up in the mapping under its
assigned id. -/
def FindsAll (mp : List (List Char × List Char)) : List PIIEntityM → Prop
  | [] => True
  | e :: rest =>
    assocFind mp (entityId e.type rest.length) = some e.text ∧ FindsAll mp rest

theorem FindsAll_append_right (mp m2 : List (List Char × List Char))
    (l : List PIIEntityM) (h : FindsAll mp l) : FindsAll (mp ++ m2) l := by
  induction l with
  | nil => trivial
  | cons e rest ih =>
    obtain ⟨h1, h2⟩ := h
    refine ⟨?_, ih h2⟩
    rw [assocFind_append, h1]

theorem findsAll_mappingAsc (l : List PIIEntityM) :
    FindsAll (mappingAsc l) l := by
  induction l with
  | nil => trivial
  | cons e rest ih =>
    constructor
    · rw [mappingAsc, assocFind_append]
      have hnone : assocFind (mappingAsc rest) (entityId e.type rest.length)
          = none := by
        apply assocFind_eq_none
        intro kv hkv hkeq
        obtain ⟨ty, k, hk, hkv1⟩ := mappingAsc_keys rest kv hkv
        rw [hkv1] at hkeq
        have := entityId_inj_idx ty e.type k rest.length hkeq
        omega
      rw [hnone]
      rw [assocFind, if_pos rfl]
    · rw [mappingAsc]
      exact FindsAll_append_right _ _ _ ih

theorem chain_stop_le_all (e : PIIEntityM) (rest : List PIIEntityM)
    (hchain : List.Chain' (fun a b => a.stop ≤ b.start) (e :: rest))
    (hb : ∀ f ∈ rest, f.start < f.stop) :
    ∀ f ∈ rest, e.stop ≤ f.start := by
  induction rest generalizing e with
  | nil => simp
  | cons g rest' ih =>
    intro f hf
    have h1 : e.stop ≤ g.start := (List.chain'_cons.1 hchain).1
    rcases List.mem_cons.1 hf with rfl | hf'
    · exact h1
    · have h2 := ih g ((List.chain'_cons.1 hchain).2)
        (fun x hx => hb x (by simp [hx])) f hf'
      have := hb g (by simp)
      omega

theorem subScan_id_of_no_lt (sid : List Char)
    (mp : List (List Char × List Char)) (t : List Char) (h : '<' ∉ t) :
    subScan sid mp t = t := by
  have := subScan_append_no_lt sid mp t []
    (fun c hc hceq => h (by rw [← hceq]; exact hc))
  rw [show subScan sid mp ([] : List Char) = [] from rfl,
    List.append_nil] at this
  exact this

/-- Scanning the interleaved masked form recovers the original text. -/
theorem subScan_buildMasked (sid : List Char)
    (mp : List (List Char × List Char)) (l : List PIIEntityM) :
    ∀ (t : List Char) (o : ℕ), '<' ∉ t →
    List.Chain' (fun a b => a.stop ≤ b.start) l →
    (∀ e ∈ l, o ≤ e.start ∧ e.start < e.stop ∧ e.stop ≤ o + t.length) →
    (∀ e ∈ l, e.text = (t.drop (e.start - o)).take (e.stop - e.start)) →
    FindsAll mp l →
    subScan sid mp (buildMasked sid t o l) = t := by
  induction l with
  | nil =>
    intro t o hlt _ _ _ _
    exact subScan_id_of_no_lt sid mp t hlt
  | cons e rest ih =>
    intro t o hlt hchain hbound htext hfind
    have hbe := hbound e (by simp)
    rw [buildMasked]
    rw [List.append_assoc]
    rw [subScan_append_no_lt sid mp _ _
      (fun c hc hceq => hlt (by rw [← hceq]; exact List.take_subset _ _ hc))]
    rw [subScan_sentinel_head]
    rw [hfind.1]
    have hstople := chain_stop_le_all e rest hchain
      (fun f hf => (hbound f (by simp [hf])).2.1)
    have hrest : subScan sid mp
        (buildMasked sid (t.drop (e.stop - o)) e.stop rest)
        = t.drop (e.stop - o) := by
      apply ih (t.drop (e.stop - o)) e.stop
        (fun hmem => hlt (List.drop_subset _ _ hmem))
        ((List.chain'_cons'.1 hchain).2)
      · intro f hf
        have hbf := hbound f (by simp [hf])
        have hsl := hstople f hf
        refine ⟨hsl, hbf.2.1, ?_⟩
        rw [List.length_drop]
        omega
      · intro f hf
        have hbf := hbound f (by simp [hf])
        have hsl := hstople f hf
        rw [htext f (by simp [hf])]
        rw [List.drop_drop]
        rw [show e.stop - o + (f.start - e.stop) = f.start - o by omega]
      · exact hfind.2
    rw [hrest]
    rw [htext e (by simp)]
    have hAB : e.stop - o = (e.start - o) + (e.stop - e.start) := by omega
    rw [hAB, ← List.drop_drop]
    rw [Option.getD_some, List.take_append_drop, List.take_append_drop]

theorem chain_startLt_of (l : List PIIEntityM)
    (hchain : List.Chain' (fun a b => a.stop ≤ b.start) l)
    (hb : ∀ e ∈ l, e.start < e.stop) : List.Chain' startLt l := by
  induction l with
  | nil => trivial
  | cons e rest ih =>
    cases rest with
    | nil => exact List.chain'_singleton e
    | cons g rest' =>
      refine List.chain'_cons.2 ⟨?_, ?_⟩
      · have h1 : e.stop ≤ g.start := (List.chain'_cons.1 hchain).1
        have h2 := hb e (by simp)
        unfold startLt
        omega
      · exact ih ((List.chain'_cons.1 hchain).2)
          (fun x hx => hb x (by simp [hx]))

/-- C1 (amended): the mask/unmask round trip recovers the original text
for every session id and every WELL-FORMED entity list — entities sorted
by start, pairwise non-overlapping, in bounds, each carrying the surface
text actually at its offsets — over any text containing no `<` (so the
text cannot collide with sentinel syntax).  The claim's unrestricted
quantification over entity lists is refuted by
`mask_unmask_not_roundtrip`. -/
theorem mask_unmask_roundtrip (sid t : List Char) (l : List PIIEntityM)
    (hsid : sid ≠ [])
    (hlt : '<' ∉ t)
    (hchain : List.Chain' (fun a b => a.stop ≤ b.start) l)
    (hbound : ∀ e ∈ l, e.start < e.stop ∧ e.stop ≤ t.length)
    (htext : ∀ e ∈ l, e.text = (t.drop e.start).take (e.stop - e.start)) :
    unmask (mask sid t l).1 (mask sid t l).2.1 (some (mask sid t l).2.2)
      = t := by
  by_cases hl : l = []
  · subst hl
    unfold mask
    rw [if_pos rfl]
    unfold unmask
    rw [if_pos rfl]
  · unfold mask
    rw [if_neg hl]
    dsimp only
    have hasc : List.Pairwise startLt l :=
      List.chain'_iff_pairwise.1
        (chain_startLt_of l hchain (fun e he => (hbound e he).1))
    rw [sortDesc_of_ascending l hasc]
    rw [maskLoop_reverse_eq_buildMasked sid t l hchain hbound]
    dsimp only
    unfold unmask
    rw [if_neg hsid]
    apply subScan_buildMasked sid (mappingAsc l) l t 0 hlt hchain
    · intro e he
      refine ⟨by omega, (hbound e he).1, ?_⟩
      have := (hbound e he).2
      omega
    · intro e he
      have := htext e he
      simpa using this
    · exact findsAll_mappingAsc l

/-- C1 counterexample to the claim as stated (quantifying over ALL
entity lists): an entity whose surface text `"X"` is not the text at its
offsets in `"ab"` masks and then unmasks to `"Xb" ≠ "ab"`. -/
theorem mask_unmask_not_roundtrip :
    unmask (mask "s".data "ab".data [⟨.TCKN, "X".data, 0, 1, 1⟩]).1
      (mask "s".data "ab".data [⟨.TCKN, "X".data, 0, 1, 1⟩]).2.1
      (some (mask "s".data "ab".data [⟨.TCKN, "X".data, 0, 1, 1⟩]).2.2)
      ≠ "ab".data := by
  decide

/-- Witness for C1 at a concrete masking of a phone number. -/
theorem mask_unmask_roundtrip_witness :
    unmask (mask "sid".data "Call 5551234567 now".data
        [⟨.PHONE, "5551234567".data, 5, 15, 1⟩]).1
      (mask "sid".data "Call 5551234567 now".data
        [⟨.PHONE, "5551234567".data, 5, 15, 1⟩]).2.1
      (some (mask "sid".data "Call 5551234567 now".data
        [⟨.PHONE, "5551234567".data, 5, 15, 1⟩]).2.2)
      = "Call 5551234567 now".data := by
  apply mask_unmask_roundtrip
  · decide
  · decide
  · exact List.chain'_singleton _
  · intro e he
    simp only [List.mem_singleton] at he
    subst he
    decide
  · intro e he
    simp only [List.mem_singleton] at he
    subst he
    decide

end AIGateway
